import Mathlib

/-!
# Verification of the block file-packing system

A shallow embedding of the `internal/packer` Go package: the next-fit
block packer (`packFiles`), the binary block codec (`writeBlock` /
`readMetadata` / `UnpackBlock`), the extractor (`extractFile`) and the
block-level integrity validator (`ValidateBlock`), together with the
sort used by `Pack` (Go's `sort.Slice`, i.e. the standard library's
pattern-defeating quicksort over a `lessSwap` view of the slice).

Byte streams are `List Nat` (each entry one byte), machine integers are
`Nat`/`Int` with explicit reduction modulo `2^32`/`2^64` where the Go
code truncates, and fallible operations return explicit result types.
SHA-256 is implemented executably (FIPS 180-4), since the codec stores
per-file digests and a whole-block footer digest.
-/

/-! ## Bytes and little-endian integer codecs

`encoding/binary` with `binary.LittleEndian`: 4-byte `int32`/`uint32`
and 8-byte `int64` fields. Signed values travel in two's complement. -/

/-- One byte of a stream, as a `Nat` (well-formed streams keep it < 256). -/
abbrev Byte := Nat

/-- Little-endian bytes of `n % 2^32` (what `binary.Write` emits for a
32-bit value). -/
def enc32 (n : Nat) : List Byte :=
  [n % 256, n / 256 % 256, n / 65536 % 256, n / 16777216 % 256]

/-- Little-endian bytes of `n % 2^64`. -/
def enc64 (n : Nat) : List Byte :=
  [n % 256, n / 256 % 256, n / 65536 % 256, n / 16777216 % 256,
   n / 4294967296 % 256, n / 1099511627776 % 256,
   n / 281474976710656 % 256, n / 72057594037927936 % 256]

/-- Two's-complement image of an `int32` value inside `[0, 2^32)`. -/
def int32Bits (i : Int) : Nat := (i % 4294967296).toNat

/-- Two's-complement image of an `int64` value inside `[0, 2^64)`. -/
def int64Bits (i : Int) : Nat := (i % 18446744073709551616).toNat

/-- `binary.Write` of an `int32`, little endian. -/
def encInt32 (i : Int) : List Byte := enc32 (int32Bits i)

/-- `binary.Write` of an `int64`, little endian. -/
def encInt64 (i : Int) : List Byte := enc64 (int64Bits i)

/-- Assemble a little-endian 4-byte group into a `Nat`. -/
def leVal32 (bs : List Byte) : Nat :=
  match bs with
  | [b0, b1, b2, b3] => b0 + 256 * b1 + 65536 * b2 + 16777216 * b3
  | _ => 0

/-- Assemble a little-endian 8-byte group into a `Nat`. -/
def leVal64 (bs : List Byte) : Nat :=
  match bs with
  | [b0, b1, b2, b3, b4, b5, b6, b7] =>
      b0 + 256 * b1 + 65536 * b2 + 16777216 * b3 + 4294967296 * b4 +
        1099511627776 * b5 + 281474976710656 * b6 + 72057594037927936 * b7
  | _ => 0

/-- Signed reading of a 32-bit two's complement image. -/
def toInt32 (n : Nat) : Int :=
  if n < 2147483648 then (n : Int) else (n : Int) - 4294967296

/-- Signed reading of a 64-bit two's complement image. -/
def toInt64 (n : Nat) : Int :=
  if n < 9223372036854775808 then (n : Int) else (n : Int) - 18446744073709551616

theorem enc32_length (n : Nat) : (enc32 n).length = 4 := rfl

theorem enc64_length (n : Nat) : (enc64 n).length = 8 := rfl

theorem leVal32_enc32 (n : Nat) : leVal32 (enc32 n) = n % 4294967296 := by
  simp only [enc32, leVal32]
  omega

theorem leVal64_enc64 (n : Nat) : leVal64 (enc64 n) = n % 18446744073709551616 := by
  simp only [enc64, leVal64]
  omega

theorem int32Bits_lt (i : Int) : int32Bits i < 4294967296 := by
  simp only [int32Bits]
  omega

theorem int64Bits_lt (i : Int) : int64Bits i < 18446744073709551616 := by
  simp only [int64Bits]
  omega

/-- Round trip of an in-range `int32` through its two's complement image. -/
theorem toInt32_int32Bits (i : Int) (h1 : -2147483648 ≤ i) (h2 : i < 2147483648) :
    toInt32 (int32Bits i) = i := by
  simp only [toInt32, int32Bits]
  omega

/-- Round trip of an in-range `int64` through its two's complement image. -/
theorem toInt64_int64Bits (i : Int)
    (h1 : -9223372036854775808 ≤ i) (h2 : i < 9223372036854775808) :
    toInt64 (int64Bits i) = i := by
  simp only [toInt64, int64Bits]
  omega

/-- A nonnegative in-range `int32` reads back as its own `Nat`. -/
theorem toInt32_int32Bits_ofNat (n : Nat) (h : n < 2147483648) :
    toInt32 (int32Bits (n : Int)) = (n : Int) := by
  apply toInt32_int32Bits <;> omega

/-! ## SHA-256 (FIPS 180-4), executable

`crypto/sha256`: used for the per-file checksums and the 32-byte block
footer. Words are `Nat`s reduced modulo `2^32`. -/

/-- Reduce to a 32-bit word. -/
def w32 (n : Nat) : Nat := n % 4294967296

/-- Right rotation of a 32-bit word. -/
def rotr32 (r x : Nat) : Nat :=
  w32 ((x >>> r) ||| (x <<< (32 - r)))

/-- SHA-256 `Ch`. -/
def shaCh (x y z : Nat) : Nat := (x &&& y) ^^^ ((x ^^^ 4294967295) &&& z)

/-- SHA-256 `Maj`. -/
def shaMaj (x y z : Nat) : Nat := (x &&& y) ^^^ (x &&& z) ^^^ (y &&& z)

/-- SHA-256 `Σ₀`. -/
def bigSigma0 (x : Nat) : Nat := rotr32 2 x ^^^ rotr32 13 x ^^^ rotr32 22 x

/-- SHA-256 `Σ₁`. -/
def bigSigma1 (x : Nat) : Nat := rotr32 6 x ^^^ rotr32 11 x ^^^ rotr32 25 x

/-- SHA-256 `σ₀`. -/
def smallSigma0 (x : Nat) : Nat := rotr32 7 x ^^^ rotr32 18 x ^^^ (x >>> 3)

/-- SHA-256 `σ₁`. -/
def smallSigma1 (x : Nat) : Nat := rotr32 17 x ^^^ rotr32 19 x ^^^ (x >>> 10)

/-- The eight working variables of the compression function. -/
structure Hash8 where
  a : Nat
  b : Nat
  c : Nat
  d : Nat
  e : Nat
  f : Nat
  g : Nat
  h : Nat
deriving Repr, DecidableEq

/-- SHA-256 initial hash value. -/
def shaH0 : Hash8 :=
  ⟨1779033703, 3144134277, 1013904242, 2773480762,
   1359893119, 2600822924, 528734635, 1541459225⟩

/-- SHA-256 round constants. -/
def shaK : List Nat :=
  [1116352408, 1899447441, 3049323471, 3921009573,
   961987163, 1508970993, 2453635748, 2870763221,
   3624381080, 310598401, 607225278, 1426881987,
   1925078388, 2162078206, 2614888103, 3248222580,
   3835390401, 4022224774, 264347078, 604807628,
   770255983, 1249150122, 1555081692, 1996064986,
   2554220882, 2821834349, 2952996808, 3210313671,
   3336571891, 3584528711, 113926993, 338241895,
   666307205, 773529912, 1294757372, 1396182291,
   1695183700, 1986661051, 2177026350, 2456956037,
   2730485921, 2820302411, 3259730800, 3345764771,
   3516065817, 3600352804, 4094571909, 275423344,
   430227734, 506948616, 659060556, 883997877,
   958139571, 1322822218, 1537002063, 1747873779,
   1955562222, 2024104815, 2227730452, 2361852424,
   2428436474, 2756734187, 3204031479, 3329325298]

/-- Big-endian 32-bit word from four stream bytes. -/
def beWord (bs : List Byte) : Nat :=
  match bs with
  | [b0, b1, b2, b3] => ((b0 % 256) <<< 24) + ((b1 % 256) <<< 16) + ((b2 % 256) <<< 8) + b3 % 256
  | _ => 0

/-- The sixteen message words of one 64-byte chunk. -/
def chunkWords (chunk : List Byte) : List Nat :=
  (List.range 16).map fun i => beWord ((chunk.drop (4 * i)).take 4)

/-- Extend sixteen message words to the 64-entry message schedule. -/
def extendSchedule (ws : List Nat) : List Nat :=
  (List.range 48).foldl
    (fun acc t =>
      acc ++ [w32 (smallSigma1 (acc.getD (t + 14) 0) + acc.getD (t + 9) 0 +
        smallSigma0 (acc.getD (t + 1) 0) + acc.getD t 0)])
    ws

/-- One compression round. -/
def shaRound (s : Hash8) (kw : Nat × Nat) : Hash8 :=
  let t1 := w32 (s.h + bigSigma1 s.e + shaCh s.e s.f s.g + kw.1 + kw.2)
  let t2 := w32 (bigSigma0 s.a + shaMaj s.a s.b s.c)
  ⟨w32 (t1 + t2), s.a, s.b, s.c, w32 (s.d + t1), s.e, s.f, s.g⟩

/-- Compress one 64-byte chunk into the running hash state. -/
def shaCompress (st : Hash8) (chunk : List Byte) : Hash8 :=
  let ws := extendSchedule (chunkWords chunk)
  let fin := (shaK.zip ws).foldl shaRound st
  ⟨w32 (st.a + fin.a), w32 (st.b + fin.b), w32 (st.c + fin.c), w32 (st.d + fin.d),
   w32 (st.e + fin.e), w32 (st.f + fin.f), w32 (st.g + fin.g), w32 (st.h + fin.h)⟩

/-- Structural worker for the 64-byte chunking (the fuel, the source
length, strictly dominates the chunk count). -/
def chunks64Go : Nat → List Byte → List (List Byte)
  | 0, _ => []
  | _, [] => []
  | fuel + 1, b :: l => (b :: l).take 64 :: chunks64Go fuel ((b :: l).drop 64)

/-- Split a padded message into 64-byte chunks. -/
def chunks64 (l : List Byte) : List (List Byte) :=
  chunks64Go l.length l

/-- SHA-256 padding for a message of `len` bytes. -/
def shaPad (len : Nat) : List Byte :=
  let zeros := (64 + 56 - (len + 1) % 64) % 64
  0x80 :: List.replicate zeros 0 ++
    [8 * len / 72057594037927936 % 256, 8 * len / 281474976710656 % 256,
     8 * len / 1099511627776 % 256, 8 * len / 4294967296 % 256,
     8 * len / 16777216 % 256, 8 * len / 65536 % 256,
     8 * len / 256 % 256, 8 * len % 256]

/-- Big-endian bytes of one hash word. -/
def wordBytes (x : Nat) : List Byte :=
  [x / 16777216 % 256, x / 65536 % 256, x / 256 % 256, x % 256]

/-- The 32-byte digest of a final hash state. -/
def hashBytes (s : Hash8) : List Byte :=
  [s.a / 16777216 % 256, s.a / 65536 % 256, s.a / 256 % 256, s.a % 256,
   s.b / 16777216 % 256, s.b / 65536 % 256, s.b / 256 % 256, s.b % 256,
   s.c / 16777216 % 256, s.c / 65536 % 256, s.c / 256 % 256, s.c % 256,
   s.d / 16777216 % 256, s.d / 65536 % 256, s.d / 256 % 256, s.d % 256,
   s.e / 16777216 % 256, s.e / 65536 % 256, s.e / 256 % 256, s.e % 256,
   s.f / 16777216 % 256, s.f / 65536 % 256, s.f / 256 % 256, s.f % 256,
   s.g / 16777216 % 256, s.g / 65536 % 256, s.g / 256 % 256, s.g % 256,
   s.h / 16777216 % 256, s.h / 65536 % 256, s.h / 256 % 256, s.h % 256]

/-- SHA-256 of a byte list, as its 32 digest bytes. -/
def sha256 (msg : List Byte) : List Byte :=
  hashBytes ((chunks64 (msg ++ shaPad msg.length)).foldl shaCompress shaH0)

/-- Every SHA-256 digest is exactly 32 bytes — the `Checksum` field
invariant of `FileMetadata`. -/
theorem sha256_length (msg : List Byte) : (sha256 msg).length = 32 := rfl

/-! ## Data model

`FileInfo` is the collector-produced descriptor (`collectFileInfo`),
`SFile` a source file together with its on-disk content (the packer
re-reads contents from disk by path), `FileMeta` the persisted
`FileMetadata` record, `OutFile` one file written by the extractor. -/

/-- A file descriptor: `FileInfo` from `collectFileInfo` (the `IsDir`
field is always `false` for collected files and is omitted). -/
structure FileInfo where
  path : List Byte
  size : Int
  modTime : Int
  mode : Nat
deriving Repr, DecidableEq

/-- A source file with its content; its descriptor's size is the
content's length. -/
structure SFile where
  path : List Byte
  content : List Byte
  modTime : Int
  mode : Nat
deriving Repr, DecidableEq

/-- The descriptor `os.Stat` produces for a source file. -/
def fileInfoOf (f : SFile) : FileInfo :=
  ⟨f.path, (f.content.length : Int), f.modTime, f.mode⟩

/-- The persisted `FileMetadata` record. -/
structure FileMeta where
  path : List Byte
  size : Int
  modTime : Int
  checksum : List Byte
  offset : Int
  blockID : Int
  mode : Nat
deriving Repr, DecidableEq

/-- One file as restored by `extractFile`: destination path, written
bytes, restored modification time and permission bits. -/
structure OutFile where
  path : List Byte
  content : List Byte
  modTime : Int
  mode : Nat
deriving Repr, DecidableEq

/-- `os.Open` + `io.Copy`: the content of the file at `p`. -/
def readDisk (disk : List SFile) (p : List Byte) : List Byte :=
  match disk.find? (fun f => f.path == p) with
  | some f => f.content
  | none => []

/-! ## The packer (`packFiles`)

The Go loop keeps one open block; a descriptor that does not fit seals
the open block and opens the next sequential one; the block holding the
last descriptor is written when the loop index reaches the end. -/

/-- The body of `packFiles`' loop. `cur`/`curSize`/`blockNum` are the
open block's files, the running `currentSize` and the current block
number. Yields the written blocks as `(ID, files)` pairs. -/
def packLoop (cap : Int) : List FileInfo → List FileInfo → Int → Int → List (Int × List FileInfo)
  | [], _, _, _ => []
  | [f], cur, curSize, blockNum =>
      if curSize + f.size > cap then [(blockNum, cur), (blockNum + 1, [f])]
      else [(blockNum, cur ++ [f])]
  | f :: g :: rest, cur, curSize, blockNum =>
      if curSize + f.size > cap then
        (blockNum, cur) :: packLoop cap (g :: rest) [f] f.size (blockNum + 1)
      else
        packLoop cap (g :: rest) (cur ++ [f]) (curSize + f.size) blockNum

/-- `packFiles`: block numbering starts at 1 with an empty open block. -/
def packFiles (files : List FileInfo) (cap : Int) : List (Int × List FileInfo) :=
  packLoop cap files [] 0 1

/-- The `FileMetadata` records `addFileToBlock` accumulates for one
block: each record's offset is the block's size before its append, and
its checksum is the SHA-256 of the file's on-disk content. -/
def blockMetasFrom (disk : List SFile) (id : Int) : List FileInfo → Int → List FileMeta
  | [], _ => []
  | f :: rest, blockSize =>
      ⟨f.path, f.size, f.modTime, sha256 (readDisk disk f.path), blockSize, id, f.mode⟩ ::
        blockMetasFrom disk id rest (blockSize + f.size)

/-- The metadata records of a block, starting from size 0. -/
def blockMetas (disk : List SFile) (id : Int) (files : List FileInfo) : List FileMeta :=
  blockMetasFrom disk id files 0

/-! ## Block encoding (`writeBlock` / `writeMetadata`) -/

/-- `writeMetadata`: path length (`int32`), raw path bytes, size
(`int64`), modification time in Unix seconds (`int64`), offset
(`int64`), permission bits (`uint32`), raw checksum bytes. -/
def encodeMeta (m : FileMeta) : List Byte :=
  encInt32 (m.path.length : Int) ++ m.path ++ encInt64 m.size ++ encInt64 m.modTime ++
    encInt64 m.offset ++ enc32 m.mode ++ m.checksum

/-- The bytes `writeBlock` feeds the running block hash: block ID,
file count, the metadata records, then every file's payload bytes. -/
def encodeBlockBody (disk : List SFile) (blockNum : Int) (files : List FileInfo) : List Byte :=
  encInt32 blockNum ++ encInt32 (files.length : Int) ++
    ((blockMetas disk blockNum files).map encodeMeta).flatten ++
    (files.map (fun f => readDisk disk f.path)).flatten

/-- `writeBlock`: the body followed by its 32-byte SHA-256 footer. -/
def encodeBlock (disk : List SFile) (blockNum : Int) (files : List FileInfo) : List Byte :=
  encodeBlockBody disk blockNum files ++ sha256 (encodeBlockBody disk blockNum files)

/-! ## Block decoding (`UnpackBlock` / `readMetadata`) and extraction

`binary.Read` fills its value with `io.ReadFull` semantics: it fails
when the stream holds fewer bytes than the value needs.  A bare
`r.Read(buf)` (used for the path and checksum fields) is one `Read`
call on a file: it fails only on an empty stream, and silently returns
a short read — the remainder of the zero-initialised buffer stays 0. -/

/-- `io.ReadFull` of `k` bytes. -/
def readFull (k : Nat) (s : List Byte) : Option (List Byte × List Byte) :=
  if k ≤ s.length then some (s.take k, s.drop k) else none

/-- One `Read` call into a fresh `k`-byte buffer. -/
def readSingle (k : Nat) (s : List Byte) : Option (List Byte × List Byte) :=
  if k = 0 then some ([], s)
  else if s.length = 0 then none
  else some (s.take k ++ List.replicate (k - min k s.length) 0, s.drop k)

/-- `binary.Read` of a little-endian `int32`. -/
def readInt32 (s : List Byte) : Option (Int × List Byte) :=
  (readFull 4 s).map fun p => (toInt32 (leVal32 p.1), p.2)

/-- `binary.Read` of a little-endian `int64`. -/
def readInt64 (s : List Byte) : Option (Int × List Byte) :=
  (readFull 8 s).map fun p => (toInt64 (leVal64 p.1), p.2)

/-- `binary.Read` of a little-endian `uint32`. -/
def readUInt32 (s : List Byte) : Option (Nat × List Byte) :=
  (readFull 4 s).map fun p => (leVal32 p.1, p.2)

/-- Outcome of a decode step: a value and the remaining stream, an
error (returned to the caller), or a run-time panic. -/
inductive DecRes (α : Type) where
  | ok (val : α) (rest : List Byte)
  | err
  | panic
deriving Repr

/-- `readMetadata`.  A negative path length reaches
`make([]byte, pathLen)`, which panics at run time. -/
def readMetadata (s : List Byte) : DecRes FileMeta :=
  match readInt32 s with
  | none => .err
  | some (pathLen, s1) =>
    if pathLen < 0 then .panic
    else match readSingle pathLen.toNat s1 with
      | none => .err
      | some (path, s2) =>
        match readInt64 s2 with
        | none => .err
        | some (size, s3) =>
          match readInt64 s3 with
          | none => .err
          | some (modTime, s4) =>
            match readInt64 s4 with
            | none => .err
            | some (offset, s5) =>
              match readUInt32 s5 with
              | none => .err
              | some (mode, s6) =>
                match readSingle 32 s6 with
                | none => .err
                | some (checksum, s7) => .ok ⟨path, size, modTime, checksum, offset, 0, mode⟩ s7

/-- The metadata loop of `UnpackBlock`: exactly `n` records in order. -/
def readMetas (n : Nat) (s : List Byte) : DecRes (List FileMeta) :=
  match n with
  | 0 => .ok [] s
  | n + 1 =>
    match readMetadata s with
    | .err => .err
    | .panic => .panic
    | .ok m s1 =>
      match readMetas n s1 with
      | .err => .err
      | .panic => .panic
      | .ok ms s2 => .ok (m :: ms) s2

/-- Outcome of extracting one file from the positioned stream. -/
inductive ExtractRes where
  | ok (f : OutFile) (rest : List Byte)
  | ioErr
  | integrityErr (path : List Byte)
deriving Repr

/-- `extractFile`: copy exactly `size` bytes (`io.CopyN`) while
hashing them, compare the digest with the record's checksum, then
restore the modification time.  `io.CopyN` with a non-positive count
copies nothing and reports no error. -/
def extractFile (s : List Byte) (m : FileMeta) : ExtractRes :=
  if m.size ≤ 0 then
    if sha256 [] = m.checksum then .ok ⟨m.path, [], m.modTime, m.mode⟩ s
    else .integrityErr m.path
  else if s.length < m.size.toNat then .ioErr
  else if sha256 (s.take m.size.toNat) = m.checksum then
    .ok ⟨m.path, s.take m.size.toNat, m.modTime, m.mode⟩ (s.drop m.size.toNat)
  else .integrityErr m.path

/-- Outcome of `UnpackBlock`: on failure, `written` holds the files
already extracted (they stay on disk — no rollback). -/
inductive UnpackRes where
  | ok (written : List OutFile)
  | verifyErr
  | decodeErr
  | panic
  | ioErr (written : List OutFile)
  | integrityErr (written : List OutFile) (path : List Byte)
deriving Repr, DecidableEq

/-- The extraction loop of `UnpackBlock`: records strictly in order;
the first failure aborts the remaining records. -/
def extractFiles : List FileMeta → List Byte → List OutFile → UnpackRes
  | [], _, acc => .ok acc
  | m :: ms, s, acc =>
    match extractFile s m with
    | .ioErr => .ioErr acc
    | .integrityErr p => .integrityErr acc p
    | .ok f rest => extractFiles ms rest (acc ++ [f])

/-- `ChecksumsEqual`: length check, then byte-for-byte comparison. -/
def checksumsEqual (a b : List Byte) : Bool :=
  if a.length ≠ b.length then false
  else (a.zip b).all fun p => p.1 == p.2

/-- Outcome of `ValidateBlock`. -/
inductive ValidateRes where
  | ok
  | readErr
  | integrityErr
deriving Repr, DecidableEq

/-- `ValidateBlock`: read the 4-byte block ID, seek to the last 32
bytes for the stored footer, recompute SHA-256 over bytes
`[0, length-32)` and compare. -/
def validateBlockBytes (s : List Byte) : ValidateRes :=
  if s.length < 4 then .readErr
  else if s.length < 32 then .readErr
  else if checksumsEqual (s.drop (s.length - 32)) (sha256 (s.take (s.length - 32))) then .ok
  else .integrityErr

/-- `UnpackBlock` on a block stream: optional pre-extraction
verification, header, metadata records, then in-order extraction.
`make([]FileMetadata, numFiles)` panics when the count is negative. -/
def unpackBlockBytes (verify : Bool) (s : List Byte) : UnpackRes :=
  if verify = true ∧ validateBlockBytes s ≠ ValidateRes.ok then .verifyErr
  else
    match readInt32 s with
    | none => .decodeErr
    | some (_, s1) =>
      match readInt32 s1 with
      | none => .decodeErr
      | some (numFiles, s2) =>
        if numFiles < 0 then .panic
        else
          match readMetas numFiles.toNat s2 with
          | .err => .decodeErr
          | .panic => .panic
          | .ok ms s3 => extractFiles ms s3 []

/-! ## `sort.Slice` (Go standard library pdqsort)

`Pack` sorts the collected descriptors with
`sort.Slice(fileInfos, func(i, j int) { return fileInfos[i].Size > fileInfos[j].Size })`.
`sort.Slice` runs the standard library's pattern-defeating quicksort
over a `lessSwap` view whose `Less` compares the elements currently at
the two positions; it is documented and implemented as *not* stable.
The embedding is generic in the element-wise comparison `lt`.  Loops
carry explicit fuel; every supplied fuel bound strictly dominates the
corresponding Go loop's iteration count, so the fuel-exhaustion
branches are never reached. -/

/-- `data.Less i j`: compare the elements currently at `i` and `j`.
The slice is modelled as a plain list. -/
def aless (lt : α → α → Bool) (a : List α) (i j : Nat) : Bool :=
  match a.get? i, a.get? j with
  | some x, some y => lt x y
  | _, _ => false

/-- `data.Swap i j` (in-range in every reachable call). -/
def aswap (a : List α) (i j : Nat) : List α :=
  match a.get? i, a.get? j with
  | some x, some y => (a.set i y).set j x
  | _, _ => a

/-- Inner loop of `insertionSort_func`: sink position `j` leftwards
while it is less than its left neighbour (but not past `lo`). -/
def insInner (lt : α → α → Bool) (lo : Nat) : Nat → List α → List α
  | 0, a => a
  | j + 1, a =>
    if j + 1 > lo && aless lt a (j + 1) j then insInner lt lo j (aswap a (j + 1) j)
    else a

/-- Outer loop of `insertionSort_func`, `i` ranging over `[lo+1, hi)`. -/
def insGo (lt : α → α → Bool) (lo : Nat) : Nat → Nat → List α → List α
  | 0, _, a => a
  | n + 1, i, a => insGo lt lo n (i + 1) (insInner lt lo i a)

/-- `insertionSort_func data lo hi`. -/
def insertionSortA (lt : α → α → Bool) (a : List α) (lo hi : Nat) : List α :=
  insGo lt lo (hi - (lo + 1)) (lo + 1) a

/-- `siftDown_func`'s loop: push `root` down the max-heap on
`[first, first+hi)`. -/
def siftDownGo (lt : α → α → Bool) (first hi : Nat) : Nat → Nat → List α → List α
  | 0, _, a => a
  | fuel + 1, root, a =>
    let child := 2 * root + 1
    if child ≥ hi then a
    else
      let child := if child + 1 < hi && aless lt a (first + child) (first + child + 1)
        then child + 1 else child
      if !aless lt a (first + root) (first + child) then a
      else siftDownGo lt first hi fuel child (aswap a (first + root) (first + child))

/-- `siftDown_func data lo hi first`. -/
def siftDownA (lt : α → α → Bool) (a : List α) (lo hi first : Nat) : List α :=
  siftDownGo lt first hi (hi + 1) lo a

/-- `heapSort_func data lo hi`: build the heap, then pop maxima into
the tail. -/
def heapSortA (lt : α → α → Bool) (a : List α) (lo hi : Nat) : List α :=
  let first := lo
  let n := hi - lo
  let a := (List.range ((n - 1) / 2 + 1)).reverse.foldl
    (fun acc i => siftDownA lt acc i n first) a
  (List.range n).reverse.foldl
    (fun acc i => siftDownA lt (aswap acc first (first + i)) 0 i first) a

/-- `reverseRange_func`'s loop. -/
def revGo : Nat → Nat → Nat → List α → List α
  | 0, _, _, a => a
  | fuel + 1, i, j, a => if i < j then revGo fuel (i + 1) (j - 1) (aswap a i j) else a

/-- `reverseRange_func data lo hi`. -/
def reverseRangeA (a : List α) (lo hi : Nat) : List α :=
  revGo hi lo (hi - 1) a

/-- `order2_func`: order two positions by comparison, counting swaps. -/
def order2 (lt : α → α → Bool) (a : List α) (i j swaps : Nat) : Nat × Nat × Nat :=
  if aless lt a j i then (j, i, swaps + 1) else (i, j, swaps)

/-- `median_func`: the median position of three, counting swaps. -/
def median3 (lt : α → α → Bool) (a : List α) (x y z swaps : Nat) : Nat × Nat :=
  let p1 := order2 lt a x y swaps
  let p2 := order2 lt a p1.2.1 z p1.2.2
  let p3 := order2 lt a p1.1 p2.1 p2.2.2
  (p3.2.1, p3.2.2)

/-- `medianAdjacent_func`: median of a position and its neighbours. -/
def medianAdjacent (lt : α → α → Bool) (a : List α) (i swaps : Nat) : Nat × Nat :=
  median3 lt a (i - 1) i (i + 1) swaps

/-- The `sortedHint` returned by pivot selection. -/
inductive SortedHint where
  | increasing
  | decreasing
  | unknown
deriving Repr, DecidableEq

/-- `choosePivot_func`: medians (ninther for length ≥ 50), with the
hint drawn from the swap count (0 = increasing, 12 = decreasing). -/
def choosePivot (lt : α → α → Bool) (a : List α) (lo hi : Nat) : Nat × SortedHint :=
  let l := hi - lo
  let i0 := lo + l / 4 * 1
  let j0 := lo + l / 4 * 2
  let k0 := lo + l / 4 * 3
  let js :=
    if 8 ≤ l then
      if 50 ≤ l then
        let p1 := medianAdjacent lt a i0 0
        let p2 := medianAdjacent lt a j0 p1.2
        let p3 := medianAdjacent lt a k0 p2.2
        median3 lt a p1.1 p2.1 p3.1 p3.2
      else median3 lt a i0 j0 k0 0
    else (j0, 0)
  (js.1, if js.2 = 0 then .increasing else if js.2 = 12 then .decreasing else .unknown)

/-- Scan of `partialInsertionSort_func`: advance `i` over the already
ordered prefix. -/
def pisScan (lt : α → α → Bool) (hi : Nat) : Nat → Nat → List α → Nat
  | 0, i, _ => i
  | fuel + 1, i, a =>
    if i < hi && !aless lt a i (i - 1) then pisScan lt hi fuel (i + 1) a else i

/-- Leftward shift loop of `partialInsertionSort_func` (`j ≥ 1`). -/
def shiftLeftGo (lt : α → α → Bool) : Nat → Nat → List α → List α
  | 0, _, a => a
  | fuel + 1, j, a =>
    if j ≥ 1 then
      if !aless lt a j (j - 1) then a
      else shiftLeftGo lt fuel (j - 1) (aswap a j (j - 1))
    else a

/-- Rightward shift loop of `partialInsertionSort_func` (`j < hi`). -/
def shiftRightGo (lt : α → α → Bool) (hi : Nat) : Nat → Nat → List α → List α
  | 0, _, a => a
  | fuel + 1, j, a =>
    if j < hi then
      if !aless lt a j (j - 1) then a
      else shiftRightGo lt hi fuel (j + 1) (aswap a j (j - 1))
    else a

/-- `partialInsertionSort_func`: at most five misplaced elements are
repaired (and only when the range is ≥ 50 long); returns whether the
range ended up sorted. -/
def partialInsertionSortGo (lt : α → α → Bool) (lo hi : Nat) :
    Nat → Nat → List α → Bool × List α
  | 0, _, a => (false, a)
  | steps + 1, i, a =>
    let i := pisScan lt hi (hi + 1) i a
    if i = hi then (true, a)
    else if hi - lo < 50 then (false, a)
    else
      let a := aswap a i (i - 1)
      let a := if i - lo ≥ 2 then shiftLeftGo lt i (i - 1) a else a
      let a := if hi - i ≥ 2 then shiftRightGo lt hi (hi + 1) (i + 1) a else a
      partialInsertionSortGo lt lo hi steps i a

/-- `partialInsertionSort_func data lo hi`. -/
def partialInsertionSortA (lt : α → α → Bool) (a : List α) (lo hi : Nat) : Bool × List α :=
  partialInsertionSortGo lt lo hi 5 (lo + 1) a

/-- `partition_func`'s upward scan: `for i <= j && data.Less(i, lo)`. -/
def scanUp (lt : α → α → Bool) (lo : Nat) : Nat → Nat → Nat → List α → Nat
  | 0, i, _, _ => i
  | fuel + 1, i, j, a =>
    if i ≤ j && aless lt a i lo then scanUp lt lo fuel (i + 1) j a else i

/-- `partition_func`'s downward scan: `for i <= j && !data.Less(j, lo)`. -/
def scanDown (lt : α → α → Bool) (lo : Nat) : Nat → Nat → Nat → List α → Nat
  | 0, _, j, _ => j
  | fuel + 1, i, j, a =>
    if i ≤ j && !aless lt a j lo then scanDown lt lo fuel i (j - 1) a else j

/-- Main exchange loop of `partition_func`. -/
def partLoop (lt : α → α → Bool) (lo hi : Nat) : Nat → Nat → Nat → List α → List α × Nat
  | 0, _, j, a => (a, j)
  | fuel + 1, i, j, a =>
    let i := scanUp lt lo (hi + 1) i j a
    let j := scanDown lt lo (hi + 1) i j a
    if i > j then (a, j)
    else partLoop lt lo hi fuel (i + 1) (j - 1) (aswap a i j)

/-- `partition_func data lo hi pivot`: pivot to the front, two-way
scans, pivot into its slot; also reports whether the range was already
partitioned. -/
def partitionA (lt : α → α → Bool) (a : List α) (lo hi pivot : Nat) :
    List α × Nat × Bool :=
  let a := aswap a lo pivot
  let i := scanUp lt lo (hi + 1) (lo + 1) (hi - 1) a
  let j := scanDown lt lo (hi + 1) i (hi - 1) a
  if i > j then (aswap a j lo, j, true)
  else
    let p := partLoop lt lo hi (hi + 1) (i + 1) (j - 1) (aswap a i j)
    (aswap p.1 p.2 lo, p.2, false)

/-- Upward scan of `partitionEqual_func`: `for i <= j && !data.Less(lo, i)`. -/
def scanUpEq (lt : α → α → Bool) (lo : Nat) : Nat → Nat → Nat → List α → Nat
  | 0, i, _, _ => i
  | fuel + 1, i, j, a =>
    if i ≤ j && !aless lt a lo i then scanUpEq lt lo fuel (i + 1) j a else i

/-- Downward scan of `partitionEqual_func`: `for i <= j && data.Less(lo, j)`. -/
def scanDownEq (lt : α → α → Bool) (lo : Nat) : Nat → Nat → Nat → List α → Nat
  | 0, _, j, _ => j
  | fuel + 1, i, j, a =>
    if i ≤ j && aless lt a lo j then scanDownEq lt lo fuel i (j - 1) a else j

/-- Exchange loop of `partitionEqual_func`; returns the final `i`. -/
def partEqLoop (lt : α → α → Bool) (lo hi : Nat) : Nat → Nat → Nat → List α → List α × Nat
  | 0, i, _, a => (a, i)
  | fuel + 1, i, j, a =>
    let i := scanUpEq lt lo (hi + 1) i j a
    let j := scanDownEq lt lo (hi + 1) i j a
    if i > j then (a, i)
    else partEqLoop lt lo hi fuel (i + 1) (j - 1) (aswap a i j)

/-- `partitionEqual_func data lo hi pivot`: move elements equal to the
pivot to the front, returning the first index of the greater part. -/
def partitionEqualA (lt : α → α → Bool) (a : List α) (lo hi pivot : Nat) : List α × Nat :=
  partEqLoop lt lo hi (hi + 1) (lo + 1) (hi - 1) (aswap a lo pivot)

/-- One step of the `xorshift` generator seeded by the range length. -/
def xorshiftNext (r : Nat) : Nat :=
  let r := (r ^^^ (r <<< 13)) % 18446744073709551616
  let r := r ^^^ (r >>> 7)
  (r ^^^ (r <<< 17)) % 18446744073709551616

/-- `bits.Len`. -/
def bitsLen (n : Nat) : Nat := if n = 0 then 0 else Nat.log2 n + 1

/-- `nextPowerOfTwo` (as in the Go sort package: `1 << bits.Len n`). -/
def nextPowerOfTwo (n : Nat) : Nat := 1 <<< bitsLen n

/-- `breakPatterns_func`: swap three positions around the midpoint with
pseudo-random ones (deterministic: the generator is seeded by the
range length). -/
def breakPatternsA (a : List α) (lo hi : Nat) : List α :=
  let length := hi - lo
  if length ≥ 8 then
    let modulus := nextPowerOfTwo length
    let idx := lo + length / 4 * 2 - 1
    let r1 := xorshiftNext length
    let r2 := xorshiftNext r1
    let r3 := xorshiftNext r2
    let pick := fun (r : Nat) =>
      let o := r &&& (modulus - 1)
      if o ≥ length then o - length else o
    let a := aswap a (idx - 1) (lo + pick r1)
    let a := aswap a idx (lo + pick r2)
    aswap a (idx + 1) (lo + pick r3)
  else a

/-- The partitioning tail of one `pdqsort_func` iteration: the
equal-elements fast path when the left neighbour equals the pivot,
otherwise the main partition, recursing into the shorter side and
continuing (via `recur`) on the longer one with the updated
balance/partitioned flags. -/
def pdqsortPartition (lt : α → α → Bool)
    (recur : Nat → Nat → Nat → Bool → Bool → List α → List α)
    (lo hi limit1 length : Nat) (wasBalanced wasPartitioned : Bool)
    (pivot : Nat) (a3 : List α) : List α :=
  if decide (0 < lo) && !aless lt a3 (lo - 1) pivot then
    let pe := partitionEqualA lt a3 lo hi pivot
    recur pe.2 hi limit1 wasBalanced wasPartitioned pe.1
  else
    let pr := partitionA lt a3 lo hi pivot
    let mid := pr.2.1
    let leftLen := mid - lo
    let rightLen := hi - mid
    let balanced := decide (min leftLen rightLen ≥ length / 8)
    if leftLen < rightLen then
      recur (mid + 1) hi limit1 balanced pr.2.2 (recur lo mid limit1 true true pr.1)
    else
      recur lo mid limit1 balanced pr.2.2 (recur (mid + 1) hi limit1 true true pr.1)

/-- The already-sorted probe of one `pdqsort_func` iteration: when the
last round was balanced and partitioned and the hint is increasing, an
opportunistic partial insertion sort may finish the range. -/
def pdqsortProbe (lt : α → α → Bool)
    (recur : Nat → Nat → Nat → Bool → Bool → List α → List α)
    (lo hi limit1 length : Nat) (wasBalanced wasPartitioned : Bool)
    (pivot : Nat) (hint : SortedHint) (a2 : List α) : List α :=
  let pis :=
    if wasBalanced && wasPartitioned && hint = SortedHint.increasing then
      partialInsertionSortA lt a2 lo hi
    else (false, a2)
  if pis.1 then pis.2
  else pdqsortPartition lt recur lo hi limit1 length wasBalanced wasPartitioned pivot pis.2

/-- One iteration of `pdqsort_func`'s loop, with `recur` standing for
both the recursive call on the shorter side and the loop continuation
on the longer one.  A fresh invocation resets
`wasBalanced`/`wasPartitioned` to `true`; a loop continuation carries
the updated flags. -/
def pdqsortBody (lt : α → α → Bool)
    (recur : Nat → Nat → Nat → Bool → Bool → List α → List α)
    (lo hi limit : Nat) (wasBalanced wasPartitioned : Bool) (a : List α) : List α :=
  let length := hi - lo
  if length ≤ 12 then insertionSortA lt a lo hi
  else if limit = 0 then heapSortA lt a lo hi
  else
    let a1 := if !wasBalanced then breakPatternsA a lo hi else a
    let limit1 := if !wasBalanced then limit - 1 else limit
    let pv := choosePivot lt a1 lo hi
    let a2 := if pv.2 = SortedHint.decreasing then reverseRangeA a1 lo hi else a1
    let pivot := if pv.2 = SortedHint.decreasing then (hi - 1) - (pv.1 - lo) else pv.1
    let hint := if pv.2 = SortedHint.decreasing then SortedHint.increasing else pv.2
    pdqsortProbe lt recur lo hi limit1 length wasBalanced wasPartitioned pivot hint a2

/-- `pdqsort_func`: the loop/recursion, spending one unit of fuel per
iteration or recursive call. -/
def pdqsortGo (lt : α → α → Bool) :
    Nat → Nat → Nat → Nat → Bool → Bool → List α → List α
  | 0, _, _, _, _, _, a => a
  | fuel + 1, lo, hi, limit, wasBalanced, wasPartitioned, a =>
    pdqsortBody lt (pdqsortGo lt fuel) lo hi limit wasBalanced wasPartitioned a

/-- Fuel that strictly dominates pdqsort's loop/recursion chain. -/
def sortSliceFuel (n : Nat) : Nat := n * n + n + 64

/-- `sort.Slice` with an element-wise comparison closure:
`pdqsort(data, 0, n, bits.Len(n))`. -/
def goSortSlice (lt : α → α → Bool) (l : List α) : List α :=
  pdqsortGo lt (sortSliceFuel l.length) 0 l.length (bitsLen l.length) true true l

/-- The comparison `Pack` passes to `sort.Slice`. -/
def sizeGT (f g : FileInfo) : Bool := decide (g.size < f.size)

/-- The descriptor sort performed by `Pack`. -/
def sortFileInfos (l : List FileInfo) : List FileInfo := goSortSlice sizeGT l

/-! ## `Pack` (above the filesystem walk) -/

/-- `collectFileInfo`: descriptors whose size exceeds the block size
are skipped with only a diagnostic message. -/
def collectFileInfo (cap : Int) (walked : List FileInfo) : List FileInfo :=
  walked.filter fun f => decide (f.size ≤ cap)

/-- Outcome of `Pack` after the directory walk: the walk's descriptor
list is `walked`; an empty walk is the only `Pack`-level error short
of I/O failures. -/
inductive PackRes where
  | ok (blocks : List (Int × List FileInfo))
  | errNoFiles
deriving Repr, DecidableEq

/-- `Pack`: fail when the walk found no files, otherwise filter
oversized files, sort by size descending, and pack. -/
def packRun (walked : List FileInfo) (cap : Int) : PackRes :=
  if walked = [] then .errNoFiles
  else .ok (packFiles (sortFileInfos (collectFileInfo cap walked)) cap)

/-- The descriptors of a source tree. -/
def diskInfos (disk : List SFile) : List FileInfo := disk.map fileInfoOf

/-- The block assignment `Pack` computes for a source tree. -/
def packDisk (disk : List SFile) (cap : Int) : List (Int × List FileInfo) :=
  packFiles (sortFileInfos (collectFileInfo cap (diskInfos disk))) cap

/-- The block files `Pack` writes for a source tree, in ID order. -/
def encodeRun (disk : List SFile) (cap : Int) : List (List Byte) :=
  (packDisk disk cap).map fun b => encodeBlock disk b.1 b.2

/-- `Unpack` over a directory of block files: extract each block in
turn; any failure aborts.  On success, the written files of all blocks
in order. -/
def unpackAll (verify : Bool) : List (List Byte) → Option (List OutFile)
  | [] => some []
  | s :: rest =>
    match unpackBlockBytes verify s with
    | .ok outs => (unpackAll verify rest).map (outs ++ ·)
    | _ => none

/-! ## The sort only permutes

Every mutation in the embedded pdqsort goes through `aswap`, so each
phase's output array is a permutation of its input — the fact `Pack`
relies on: sorting loses no descriptor and invents none. -/

theorem getSwapPerm {α : Type} (x : α) : ∀ (t : List α) (m : Nat) (hm : m < t.length),
    (t.get ⟨m, hm⟩ :: t.set m x).Perm (x :: t) := by
  intro t
  induction t with
  | nil => intro m hm; simp at hm
  | cons y t' ih =>
    intro m hm
    cases m with
    | zero => simpa using List.Perm.swap x y t'
    | succ k =>
      have hk : k < t'.length := by simpa using hm
      exact (List.Perm.swap y (t'.get ⟨k, hk⟩) (t'.set k x)).trans
        ((List.Perm.cons y (ih k hk)).trans (List.Perm.swap x y t'))

theorem setSetPerm {α : Type} : ∀ (l : List α) (i j : Nat) (hi : i < l.length) (hj : j < l.length),
    ((l.set i (l.get ⟨j, hj⟩)).set j (l.get ⟨i, hi⟩)).Perm l := by
  intro l
  induction l with
  | nil => intro i j hi hj; simp at hi
  | cons x t ih =>
    intro i j hi hj
    cases i with
    | zero =>
      cases j with
      | zero => simp
      | succ k =>
        have hk : k < t.length := by simpa using hj
        simpa using getSwapPerm x t k hk
    | succ m =>
      have hm : m < t.length := by simpa using hi
      cases j with
      | zero => simpa using getSwapPerm x t m hm
      | succ k =>
        have hk : k < t.length := by simpa using hj
        simpa using List.Perm.cons x (ih m k hm hk)

theorem aswap_perm {α : Type} (a : List α) (i j : Nat) : (aswap a i j).Perm a := by
  unfold aswap
  split
  · rename_i x y hx hy
    obtain ⟨hi, hgx⟩ := List.get?_eq_some.mp hx
    obtain ⟨hj, hgy⟩ := List.get?_eq_some.mp hy
    rw [← hgx, ← hgy]
    exact setSetPerm a i j hi hj
  · exact List.Perm.refl _

theorem foldl_perm {α β : Type} (f : List α → β → List α)
    (hf : ∀ acc x, (f acc x).Perm acc) :
    ∀ (l : List β) (a : List α), (l.foldl f a).Perm a := by
  intro l
  induction l with
  | nil => intro a; exact .refl _
  | cons x t ih => intro a; exact (ih (f a x)).trans (hf a x)

theorem insInner_perm {α : Type} (lt : α → α → Bool) (lo : Nat) :
    ∀ (j : Nat) (a : List α), (insInner lt lo j a).Perm a := by
  intro j
  induction j with
  | zero => intro a; exact .refl _
  | succ k ih =>
    intro a
    simp only [insInner]
    split
    · exact (ih _).trans (aswap_perm a (k + 1) k)
    · exact .refl _

theorem insGo_perm {α : Type} (lt : α → α → Bool) (lo : Nat) :
    ∀ (n i : Nat) (a : List α), (insGo lt lo n i a).Perm a := by
  intro n
  induction n with
  | zero => intro i a; exact .refl _
  | succ k ih => intro i a; exact (ih (i + 1) _).trans (insInner_perm lt lo i a)

theorem insertionSortA_perm {α : Type} (lt : α → α → Bool) (a : List α) (lo hi : Nat) :
    (insertionSortA lt a lo hi).Perm a :=
  insGo_perm lt lo (hi - (lo + 1)) (lo + 1) a

theorem siftDownGo_perm {α : Type} (lt : α → α → Bool) (first hi : Nat) :
    ∀ (fuel root : Nat) (a : List α), (siftDownGo lt first hi fuel root a).Perm a := by
  intro fuel
  induction fuel with
  | zero => intro root a; exact .refl _
  | succ k ih =>
    intro root a
    simp only [siftDownGo]
    split
    · exact .refl _
    · split <;> split
      all_goals first
      | exact .refl _
      | exact (ih _ _).trans (aswap_perm a _ _)

theorem siftDownA_perm {α : Type} (lt : α → α → Bool) (a : List α) (lo hi first : Nat) :
    (siftDownA lt a lo hi first).Perm a :=
  siftDownGo_perm lt first hi (hi + 1) lo a

theorem heapSortA_perm {α : Type} (lt : α → α → Bool) (a : List α) (lo hi : Nat) :
    (heapSortA lt a lo hi).Perm a := by
  unfold heapSortA
  refine (foldl_perm _ ?_ _ _).trans (foldl_perm _ ?_ _ _)
  · intro acc i
    exact (siftDownA_perm lt _ 0 i lo).trans (aswap_perm acc lo (lo + i))
  · intro acc i
    exact siftDownA_perm lt acc i (hi - lo) lo

theorem revGo_perm {α : Type} :
    ∀ (fuel i j : Nat) (a : List α), (revGo fuel i j a).Perm a := by
  intro fuel
  induction fuel with
  | zero => intro i j a; exact .refl _
  | succ k ih =>
    intro i j a
    simp only [revGo]
    split
    · exact (ih _ _ _).trans (aswap_perm a i j)
    · exact .refl _

theorem reverseRangeA_perm {α : Type} (a : List α) (lo hi : Nat) :
    (reverseRangeA a lo hi).Perm a :=
  revGo_perm hi lo (hi - 1) a

theorem shiftLeftGo_perm {α : Type} (lt : α → α → Bool) :
    ∀ (fuel j : Nat) (a : List α), (shiftLeftGo lt fuel j a).Perm a := by
  intro fuel
  induction fuel with
  | zero => intro j a; exact .refl _
  | succ k ih =>
    intro j a
    simp only [shiftLeftGo]
    split
    · split
      · exact .refl _
      · exact (ih _ _).trans (aswap_perm a j (j - 1))
    · exact .refl _

theorem shiftRightGo_perm {α : Type} (lt : α → α → Bool) (hi : Nat) :
    ∀ (fuel j : Nat) (a : List α), (shiftRightGo lt hi fuel j a).Perm a := by
  intro fuel
  induction fuel with
  | zero => intro j a; exact .refl _
  | succ k ih =>
    intro j a
    simp only [shiftRightGo]
    split
    · split
      · exact .refl _
      · exact (ih _ _).trans (aswap_perm a j (j - 1))
    · exact .refl _

theorem partialInsertionSortGo_perm {α : Type} (lt : α → α → Bool) (lo hi : Nat) :
    ∀ (steps i : Nat) (a : List α),
    (partialInsertionSortGo lt lo hi steps i a).2.Perm a := by
  intro steps
  induction steps with
  | zero => intro i a; exact .refl _
  | succ k ih =>
    intro i a
    simp only [partialInsertionSortGo]
    split
    · exact .refl _
    · split
      · exact .refl _
      · refine (ih _ _).trans ?_
        split
        · split
          · exact (shiftRightGo_perm lt hi _ _ _).trans
              ((shiftLeftGo_perm lt _ _ _).trans (aswap_perm a _ _))
          · exact (shiftRightGo_perm lt hi _ _ _).trans (aswap_perm a _ _)
        · split
          · exact (shiftLeftGo_perm lt _ _ _).trans (aswap_perm a _ _)
          · exact aswap_perm a _ _

theorem partialInsertionSortA_perm {α : Type} (lt : α → α → Bool) (a : List α) (lo hi : Nat) :
    (partialInsertionSortA lt a lo hi).2.Perm a :=
  partialInsertionSortGo_perm lt lo hi 5 (lo + 1) a

theorem partLoop_perm {α : Type} (lt : α → α → Bool) (lo hi : Nat) :
    ∀ (fuel i j : Nat) (a : List α), (partLoop lt lo hi fuel i j a).1.Perm a := by
  intro fuel
  induction fuel with
  | zero => intro i j a; exact .refl _
  | succ k ih =>
    intro i j a
    simp only [partLoop]
    split
    · exact .refl _
    · exact (ih _ _ _).trans (aswap_perm a _ _)

theorem partitionA_perm {α : Type} (lt : α → α → Bool) (a : List α) (lo hi pivot : Nat) :
    (partitionA lt a lo hi pivot).1.Perm a := by
  simp only [partitionA]
  split
  · exact (aswap_perm _ _ _).trans (aswap_perm a lo pivot)
  · exact ((aswap_perm _ _ _).trans ((partLoop_perm lt lo hi _ _ _ _).trans
      (aswap_perm _ _ _))).trans (aswap_perm a lo pivot)

theorem partEqLoop_perm {α : Type} (lt : α → α → Bool) (lo hi : Nat) :
    ∀ (fuel i j : Nat) (a : List α), (partEqLoop lt lo hi fuel i j a).1.Perm a := by
  intro fuel
  induction fuel with
  | zero => intro i j a; exact .refl _
  | succ k ih =>
    intro i j a
    simp only [partEqLoop]
    split
    · exact .refl _
    · exact (ih _ _ _).trans (aswap_perm a _ _)

theorem partitionEqualA_perm {α : Type} (lt : α → α → Bool) (a : List α) (lo hi pivot : Nat) :
    (partitionEqualA lt a lo hi pivot).1.Perm a :=
  (partEqLoop_perm lt lo hi _ _ _ _).trans (aswap_perm a lo pivot)

theorem breakPatternsA_perm {α : Type} (a : List α) (lo hi : Nat) :
    (breakPatternsA a lo hi).Perm a := by
  simp only [breakPatternsA]
  split
  · exact (aswap_perm _ _ _).trans ((aswap_perm _ _ _).trans (aswap_perm a _ _))
  · exact .refl _

theorem pdqsortPartition_perm {α : Type} (lt : α → α → Bool)
    (recur : Nat → Nat → Nat → Bool → Bool → List α → List α)
    (hrec : ∀ lo hi limit wb wp (a : List α), (recur lo hi limit wb wp a).Perm a)
    (lo hi limit1 length : Nat) (wb wp : Bool) (pivot : Nat) (a3 : List α) :
    (pdqsortPartition lt recur lo hi limit1 length wb wp pivot a3).Perm a3 := by
  simp only [pdqsortPartition]
  split
  · exact (hrec _ _ _ _ _ _).trans (partitionEqualA_perm lt a3 lo hi pivot)
  · split
    · exact (hrec _ _ _ _ _ _).trans ((hrec _ _ _ _ _ _).trans (partitionA_perm lt a3 lo hi pivot))
    · exact (hrec _ _ _ _ _ _).trans ((hrec _ _ _ _ _ _).trans (partitionA_perm lt a3 lo hi pivot))

theorem pdqsortProbe_perm {α : Type} (lt : α → α → Bool)
    (recur : Nat → Nat → Nat → Bool → Bool → List α → List α)
    (hrec : ∀ lo hi limit wb wp (a : List α), (recur lo hi limit wb wp a).Perm a)
    (lo hi limit1 length : Nat) (wb wp : Bool) (pivot : Nat) (hint : SortedHint) (a2 : List α) :
    (pdqsortProbe lt recur lo hi limit1 length wb wp pivot hint a2).Perm a2 := by
  simp only [pdqsortProbe]
  split
  all_goals try split
  all_goals first
  | exact partialInsertionSortA_perm lt a2 lo hi
  | exact List.Perm.refl _
  | exact (pdqsortPartition_perm lt recur hrec _ _ _ _ _ _ _ _).trans
      (partialInsertionSortA_perm lt a2 lo hi)
  | exact pdqsortPartition_perm lt recur hrec _ _ _ _ _ _ _ _

theorem pdqsortBody_perm {α : Type} (lt : α → α → Bool)
    (recur : Nat → Nat → Nat → Bool → Bool → List α → List α)
    (hrec : ∀ lo hi limit wb wp (a : List α), (recur lo hi limit wb wp a).Perm a)
    (lo hi limit : Nat) (wb wp : Bool) (a : List α) :
    (pdqsortBody lt recur lo hi limit wb wp a).Perm a := by
  simp only [pdqsortBody]
  split
  · exact insertionSortA_perm lt a lo hi
  · split
    · exact heapSortA_perm lt a lo hi
    · refine (pdqsortProbe_perm lt recur hrec _ _ _ _ _ _ _ _ _).trans ?_
      split
      all_goals try split
      all_goals first
      | exact (reverseRangeA_perm _ lo hi).trans (breakPatternsA_perm a lo hi)
      | exact reverseRangeA_perm _ lo hi
      | exact breakPatternsA_perm a lo hi
      | exact List.Perm.refl _

theorem pdqsortGo_perm {α : Type} (lt : α → α → Bool) :
    ∀ (fuel lo hi limit : Nat) (wb wp : Bool) (a : List α),
    (pdqsortGo lt fuel lo hi limit wb wp a).Perm a := by
  intro fuel
  induction fuel with
  | zero => intro lo hi limit wb wp a; exact .refl _
  | succ n ih =>
    intro lo hi limit wb wp a
    simp only [pdqsortGo]
    exact pdqsortBody_perm lt (pdqsortGo lt n)
      (fun lo hi limit wb wp a => ih lo hi limit wb wp a) lo hi limit wb wp a

/-- `sort.Slice` only rearranges the slice: the sorted descriptor list
is a permutation of the input list. -/
theorem goSortSlice_perm {α : Type} (lt : α → α → Bool) (l : List α) :
    (goSortSlice lt l).Perm l :=
  pdqsortGo_perm lt (sortSliceFuel l.length) 0 l.length (bitsLen l.length) true true l

/-- The sorted descriptor sequence is a permutation of the collected
one. -/
theorem sortFileInfos_perm (l : List FileInfo) : (sortFileInfos l).Perm l :=
  goSortSlice_perm sizeGT l

/-! ## Packer invariants -/

/-- The payload size of a block: the sum of its files' sizes. -/
def blockSizeSum (files : List FileInfo) : Int := (files.map FileInfo.size).sum

theorem packLoop_sum_le (cap : Int) (files : List FileInfo) :
    ∀ (cur : List FileInfo) (curSize bn : Int),
    (∀ f ∈ files, f.size ≤ cap) → blockSizeSum cur = curSize →
    (cur = [] → curSize = 0) → (cur ≠ [] → curSize ≤ cap) →
    ∀ b ∈ packLoop cap files cur curSize bn, blockSizeSum b.2 ≤ cap := by
  induction files with
  | nil => simp [packLoop]
  | cons f rest ih =>
    intro cur curSize bn hf hcur hnil hle
    have hfcap : f.size ≤ cap := hf f (by simp)
    have hsealed : curSize + f.size > cap → blockSizeSum cur ≤ cap := by
      intro hgt
      by_cases hc : cur = []
      · have := hnil hc
        omega
      · rw [hcur]; exact hle hc
    cases rest with
    | nil =>
      simp only [packLoop]
      split
      · intro b hb
        simp only [List.mem_cons, List.not_mem_nil, or_false] at hb
        rcases hb with hb | hb
        · rw [hb]; exact hsealed (by assumption)
        · rw [hb]; simpa [blockSizeSum] using hfcap
      · intro b hb
        simp only [List.mem_cons, List.not_mem_nil, or_false] at hb
        rw [hb]
        simp only [blockSizeSum, List.map_append, List.sum_append] at *
        simp only [List.map_cons, List.map_nil, List.sum_cons, List.sum_nil]
        omega
    | cons g rest2 =>
      have hrest : ∀ x ∈ g :: rest2, x.size ≤ cap := fun x hx => hf x (by simp [hx])
      simp only [packLoop]
      split
      · intro b hb
        rcases List.mem_cons.mp hb with hb | hb
        · rw [hb]; exact hsealed (by assumption)
        · exact ih [f] f.size (bn + 1) hrest (by simp [blockSizeSum]) (by simp)
            (fun _ => hfcap) b hb
      · intro b hb
        refine ih (cur ++ [f]) (curSize + f.size) bn hrest ?_ (by simp) (fun _ => by omega) b hb
        simp only [blockSizeSum, List.map_append, List.sum_append] at *
        simp [hcur]

theorem packLoop_files_nonempty (cap : Int) (files : List FileInfo) :
    ∀ (cur : List FileInfo) (curSize bn : Int),
    (∀ f ∈ files, f.size ≤ cap) → (cur = [] → curSize = 0) →
    ∀ b ∈ packLoop cap files cur curSize bn, b.2 ≠ [] := by
  induction files with
  | nil => simp [packLoop]
  | cons f rest ih =>
    intro cur curSize bn hf hinv
    have hfcap : f.size ≤ cap := hf f (by simp)
    cases rest with
    | nil =>
      simp only [packLoop]
      split
      · intro b hb
        simp only [List.mem_cons, List.not_mem_nil, or_false] at hb
        rcases hb with hb | hb
        · rw [hb]
          intro hc
          have := hinv hc
          omega
        · simp [hb]
      · intro b hb
        simp only [List.mem_cons, List.not_mem_nil, or_false] at hb
        simp [hb]
    | cons g rest2 =>
      have hrest : ∀ x ∈ g :: rest2, x.size ≤ cap := fun x hx => hf x (by simp [hx])
      simp only [packLoop]
      split
      · intro b hb
        rcases List.mem_cons.mp hb with hb | hb
        · rw [hb]
          intro hc
          have := hinv hc
          omega
        · exact ih [f] f.size (bn + 1) hrest (by simp) b hb
      · intro b hb
        exact ih (cur ++ [f]) (curSize + f.size) bn hrest (by simp) b hb

theorem packLoop_ne_nil (cap : Int) (f : FileInfo) (rest : List FileInfo) :
    ∀ (cur : List FileInfo) (curSize bn : Int),
    packLoop cap (f :: rest) cur curSize bn ≠ [] := by
  induction rest generalizing f with
  | nil => intro cur curSize bn; simp only [packLoop]; split <;> simp
  | cons g rest2 ih =>
    intro cur curSize bn
    simp only [packLoop]
    split
    · simp
    · exact ih g (cur ++ [f]) (curSize + f.size) bn

/-- C4.  For every input sequence of file descriptors in which no
descriptor's size exceeds the configured capacity, every block the
packer produces satisfies: sum of contained file sizes ≤ capacity. -/
theorem block_capacity_invariant (files : List FileInfo) (cap : Int)
    (h : ∀ f ∈ files, f.size ≤ cap) :
    ∀ b ∈ packFiles files cap, blockSizeSum b.2 ≤ cap :=
  packLoop_sum_le cap files [] 0 1 h rfl (fun _ => rfl) (fun hc => absurd rfl hc)

/-- Witness for `block_capacity_invariant` at a concrete input. -/
theorem block_capacity_invariant_witness :
    (∀ f ∈ [(⟨[97], 7, 0, 0⟩ : FileInfo), ⟨[98], 6, 0, 0⟩, ⟨[99], 4, 0, 0⟩], f.size ≤ 10) ∧
    ∀ b ∈ packFiles [(⟨[97], 7, 0, 0⟩ : FileInfo), ⟨[98], 6, 0, 0⟩, ⟨[99], 4, 0, 0⟩] 10,
      blockSizeSum b.2 ≤ 10 :=
  ⟨by decide, block_capacity_invariant _ 10 (by decide)⟩

theorem blockMetasFrom_length (disk : List SFile) (id : Int) :
    ∀ (files : List FileInfo) (acc : Int),
    (blockMetasFrom disk id files acc).length = files.length := by
  intro files
  induction files with
  | nil => intro acc; rfl
  | cons f rest ih => intro acc; simp [blockMetasFrom, ih]

theorem blockMetasFrom_head_offset (disk : List SFile) (id : Int) :
    ∀ (files : List FileInfo) (acc : Int)
      (h : 0 < (blockMetasFrom disk id files acc).length),
    ((blockMetasFrom disk id files acc).get ⟨0, h⟩).offset = acc := by
  intro files
  cases files with
  | nil => intro acc h; simp [blockMetasFrom] at h
  | cons f rest => intro acc h; rfl

theorem blockMetasFrom_contig (disk : List SFile) (id : Int) :
    ∀ (files : List FileInfo) (acc : Int) (i : Nat)
      (h1 : i + 1 < (blockMetasFrom disk id files acc).length)
      (h2 : i < (blockMetasFrom disk id files acc).length),
    ((blockMetasFrom disk id files acc).get ⟨i + 1, h1⟩).offset =
      ((blockMetasFrom disk id files acc).get ⟨i, h2⟩).offset +
        ((blockMetasFrom disk id files acc).get ⟨i, h2⟩).size := by
  intro files
  induction files with
  | nil => intro acc i h1 h2; simp [blockMetasFrom] at h1
  | cons f rest ih =>
    intro acc i h1 h2
    cases i with
    | zero =>
      simp only [blockMetasFrom, List.get_cons_succ, List.get_cons_zero]
      rw [blockMetasFrom_head_offset]
      rfl
    | succ j =>
      simp only [blockMetasFrom, List.get_cons_succ]
      exact ih (acc + f.size) j (by simpa [blockMetasFrom] using h1)
        (by simpa [blockMetasFrom] using h2)

/-- C6.  For every block the packer produces, the first metadata
record's offset is 0 and each later record's offset is the previous
record's offset plus its size: offsets are contiguous and
non-overlapping. -/
theorem block_offset_contiguity (disk : List SFile) (files : List FileInfo) (cap id : Int)
    (bfs : List FileInfo) (_hmem : (id, bfs) ∈ packFiles files cap) :
    (∀ h : 0 < (blockMetas disk id bfs).length,
      ((blockMetas disk id bfs).get ⟨0, h⟩).offset = 0) ∧
    (∀ (i : Nat) (h1 : i + 1 < (blockMetas disk id bfs).length)
       (h2 : i < (blockMetas disk id bfs).length),
      ((blockMetas disk id bfs).get ⟨i + 1, h1⟩).offset =
        ((blockMetas disk id bfs).get ⟨i, h2⟩).offset +
          ((blockMetas disk id bfs).get ⟨i, h2⟩).size) :=
  ⟨fun h => blockMetasFrom_head_offset disk id bfs 0 h,
   fun i h1 h2 => blockMetasFrom_contig disk id bfs 0 i h1 h2⟩

/-- Witness for `block_offset_contiguity`: a concrete two-file block. -/
theorem block_offset_contiguity_witness :
    ((1 : Int), [(⟨[97], 7, 0, 0⟩ : FileInfo), ⟨[98], 3, 0, 0⟩]) ∈
      packFiles [(⟨[97], 7, 0, 0⟩ : FileInfo), ⟨[98], 3, 0, 0⟩] 10 ∧
    (∀ h : 0 < (blockMetas [] 1 [(⟨[97], 7, 0, 0⟩ : FileInfo), ⟨[98], 3, 0, 0⟩]).length,
      ((blockMetas [] 1 [(⟨[97], 7, 0, 0⟩ : FileInfo), ⟨[98], 3, 0, 0⟩]).get ⟨0, h⟩).offset = 0) ∧
    (∀ (i : Nat)
       (h1 : i + 1 < (blockMetas [] 1 [(⟨[97], 7, 0, 0⟩ : FileInfo), ⟨[98], 3, 0, 0⟩]).length)
       (h2 : i < (blockMetas [] 1 [(⟨[97], 7, 0, 0⟩ : FileInfo), ⟨[98], 3, 0, 0⟩]).length),
      ((blockMetas [] 1 [(⟨[97], 7, 0, 0⟩ : FileInfo), ⟨[98], 3, 0, 0⟩]).get ⟨i + 1, h1⟩).offset =
        ((blockMetas [] 1 [(⟨[97], 7, 0, 0⟩ : FileInfo), ⟨[98], 3, 0, 0⟩]).get ⟨i, h2⟩).offset +
          ((blockMetas [] 1 [(⟨[97], 7, 0, 0⟩ : FileInfo), ⟨[98], 3, 0, 0⟩]).get ⟨i, h2⟩).size) :=
  ⟨by decide,
   block_offset_contiguity [] [(⟨[97], 7, 0, 0⟩ : FileInfo), ⟨[98], 3, 0, 0⟩] 10 1
     [(⟨[97], 7, 0, 0⟩ : FileInfo), ⟨[98], 3, 0, 0⟩] (by decide)⟩

/-- C10.  For a non-empty descriptor sequence with every size within
capacity, at least one block is written and no written block is empty
(in particular the final, partially filled block is written). -/
theorem packed_blocks_nonempty (files : List FileInfo) (cap : Int)
    (hne : files ≠ []) (h : ∀ f ∈ files, f.size ≤ cap) :
    packFiles files cap ≠ [] ∧ ∀ b ∈ packFiles files cap, b.2 ≠ [] := by
  constructor
  · cases files with
    | nil => exact absurd rfl hne
    | cons f rest => exact packLoop_ne_nil cap f rest [] 0 1
  · exact packLoop_files_nonempty cap files [] 0 1 h (fun _ => rfl)

/-- Witness for `packed_blocks_nonempty` at a concrete input. -/
theorem packed_blocks_nonempty_witness :
    ([(⟨[97], 7, 0, 0⟩ : FileInfo), ⟨[98], 6, 0, 0⟩] ≠ []) ∧
    (∀ f ∈ [(⟨[97], 7, 0, 0⟩ : FileInfo), ⟨[98], 6, 0, 0⟩], f.size ≤ 10) ∧
    (packFiles [(⟨[97], 7, 0, 0⟩ : FileInfo), ⟨[98], 6, 0, 0⟩] 10 ≠ [] ∧
      ∀ b ∈ packFiles [(⟨[97], 7, 0, 0⟩ : FileInfo), ⟨[98], 6, 0, 0⟩] 10, b.2 ≠ []) :=
  ⟨by decide, by decide, packed_blocks_nonempty _ 10 (by decide) (by decide)⟩

/-! ## The concrete packing scenario (C7) -/

/-- One mebibyte. -/
def oneMB : Int := 1048576

/-- The scenario's descriptors: 40MB, 30MB, 25MB, 5MB, in discovery
order. -/
def c7Files : List FileInfo :=
  [⟨[49], 40 * oneMB, 0, 0⟩, ⟨[50], 30 * oneMB, 0, 0⟩,
   ⟨[51], 25 * oneMB, 0, 0⟩, ⟨[52], 5 * oneMB, 0, 0⟩]

/-- C7.  With capacity 60MB and files of 40MB, 30MB, 25MB and 5MB, the
sort yields 40,30,25,5 and packing yields exactly two blocks:
block 1 = {40MB}, block 2 = {30MB, 25MB, 5MB}. -/
theorem concrete_packing_scenario :
    sortFileInfos c7Files = [⟨[49], 40 * oneMB, 0, 0⟩, ⟨[50], 30 * oneMB, 0, 0⟩,
      ⟨[51], 25 * oneMB, 0, 0⟩, ⟨[52], 5 * oneMB, 0, 0⟩] ∧
    packFiles (sortFileInfos c7Files) (60 * oneMB) =
      [(1, [⟨[49], 40 * oneMB, 0, 0⟩]),
       (2, [⟨[50], 30 * oneMB, 0, 0⟩, ⟨[51], 25 * oneMB, 0, 0⟩, ⟨[52], 5 * oneMB, 0, 0⟩])] := by
  decide

/-! ## `Pack` on an all-oversized tree (C8) -/

/-- Counterexample input: the walk finds one file, of size 100 against
capacity 50. -/
def c8Walked : List FileInfo := [⟨[97], 100, 0, 0⟩]

/-- C8 counterexample.  Every walked file exceeds capacity, so zero
eligible descriptors remain — yet `Pack` succeeds, producing zero
blocks, instead of returning an error. -/
theorem pack_all_oversized_succeeds :
    c8Walked ≠ [] ∧
    collectFileInfo 50 c8Walked = [] ∧
    packRun c8Walked 50 = PackRes.ok [] ∧
    packRun c8Walked 50 ≠ PackRes.errNoFiles := by decide

/-- C8 amended.  `Pack` returns its no-files error exactly when the
walk itself found no files — the check precedes the capacity filter,
so a tree whose files are all oversized packs "successfully" into
zero blocks. -/
theorem pack_error_iff_walk_empty (walked : List FileInfo) (cap : Int) :
    packRun walked cap = PackRes.errNoFiles ↔ walked = [] := by
  unfold packRun
  split <;> simp_all

/-! ## Decode of a negative file count (C3) -/

/-- C3.  An 8-byte stream declaring block ID 1 and file count −1
reaches `make([]FileMetadata, numFiles)` with a negative length and
panics, instead of failing with a malformed-block error. -/
theorem decode_negative_count_panics :
    unpackBlockBytes false [1, 0, 0, 0, 255, 255, 255, 255] = UnpackRes.panic := by decide

/-! ## Sort stability and packing determinism (C2) -/

/-- Modelled from the spec: "stable-sort descriptors by size
descending (ties preserve original discovery order)" — each descriptor
is inserted after every earlier descriptor of greater or equal size. -/
def stableInsertDesc (f : FileInfo) : List FileInfo → List FileInfo
  | [] => [f]
  | g :: t => if g.size ≥ f.size then g :: stableInsertDesc f t else f :: g :: t

/-- Modelled from the spec: the stable descending sort the spec
describes. -/
def stableSortBySizeDesc (l : List FileInfo) : List FileInfo :=
  l.foldl (fun acc f => stableInsertDesc f acc) []

/-- Thirteen descriptors (enough to leave `sort.Slice`'s insertion-sort
regime) with equal-size ties; the path records discovery order. -/
def c2Input : List FileInfo :=
  [⟨[0], 1, 0, 0⟩, ⟨[1], 1, 0, 0⟩, ⟨[2], 2, 0, 0⟩, ⟨[3], 2, 0, 0⟩,
   ⟨[4], 3, 0, 0⟩, ⟨[5], 3, 0, 0⟩, ⟨[6], 4, 0, 0⟩, ⟨[7], 4, 0, 0⟩,
   ⟨[8], 5, 0, 0⟩, ⟨[9], 5, 0, 0⟩, ⟨[10], 6, 0, 0⟩, ⟨[11], 6, 0, 0⟩,
   ⟨[12], 7, 0, 0⟩]

set_option maxRecDepth 40000 in
set_option maxHeartbeats 4000000 in
/-- C2 counterexample.  `Pack`'s sort is `sort.Slice` (pdqsort), which
is not stable: on `c2Input` the two size-6 descriptors come out in
reversed discovery order, and the result differs from the stable
descending sort the spec requires. -/
theorem sortSlice_not_stable :
    sortFileInfos c2Input ≠ stableSortBySizeDesc c2Input ∧
    (⟨[10], 6, 0, 0⟩ : FileInfo).size = (⟨[11], 6, 0, 0⟩ : FileInfo).size ∧
    c2Input.indexOf ⟨[10], 6, 0, 0⟩ < c2Input.indexOf ⟨[11], 6, 0, 0⟩ ∧
    (sortFileInfos c2Input).indexOf ⟨[11], 6, 0, 0⟩ <
      (sortFileInfos c2Input).indexOf ⟨[10], 6, 0, 0⟩ := by decide

/-- C2 amended.  Packing remains deterministic — the whole pipeline,
the sort included (its xorshift pattern-breaker is seeded only by the
range length), is a pure function of the descriptor sequence, so equal
source trees give equal block assignments and byte-identical block
files — and the sort is a permutation of the collected descriptors;
but ties are *not* guaranteed to keep discovery order. -/
theorem pack_deterministic (d₁ d₂ : List SFile) (cap : Int) (h : d₁ = d₂) :
    packDisk d₁ cap = packDisk d₂ cap ∧
    encodeRun d₁ cap = encodeRun d₂ cap ∧
    (sortFileInfos (collectFileInfo cap (diskInfos d₁))).Perm
      (collectFileInfo cap (diskInfos d₁)) := by
  subst h
  exact ⟨rfl, rfl, sortFileInfos_perm _⟩

/-- Witness for `pack_deterministic` at a concrete source tree. -/
theorem pack_deterministic_witness :
    packDisk [(⟨[97], [5], 0, 420⟩ : SFile)] 10 = packDisk [(⟨[97], [5], 0, 420⟩ : SFile)] 10 ∧
    encodeRun [(⟨[97], [5], 0, 420⟩ : SFile)] 10 = encodeRun [(⟨[97], [5], 0, 420⟩ : SFile)] 10 ∧
    (sortFileInfos (collectFileInfo 10 (diskInfos [(⟨[97], [5], 0, 420⟩ : SFile)]))).Perm
      (collectFileInfo 10 (diskInfos [(⟨[97], [5], 0, 420⟩ : SFile)])) :=
  pack_deterministic _ _ 10 rfl

/-! ## Encode-then-validate (C9) -/

theorem zip_self_all (a : List Byte) : (a.zip a).all (fun p => p.1 == p.2) = true := by
  induction a with
  | nil => rfl
  | cons x t ih => simpa using ih

theorem checksumsEqual_self (a : List Byte) : checksumsEqual a a = true := by
  unfold checksumsEqual
  simp [zip_self_all a]

theorem validate_append_digest (body : List Byte) :
    validateBlockBytes (body ++ sha256 body) = ValidateRes.ok := by
  unfold validateBlockBytes
  have hlen : (body ++ sha256 body).length = body.length + 32 := by
    simp [sha256_length]
  simp only [hlen]
  rw [if_neg (by omega), if_neg (by omega)]
  have hdrop : (body ++ sha256 body).drop (body.length + 32 - 32) = sha256 body := by
    have : body.length + 32 - 32 = body.length := by omega
    rw [this, List.drop_left]
  have htake : (body ++ sha256 body).take (body.length + 32 - 32) = body := by
    have : body.length + 32 - 32 = body.length := by omega
    rw [this, List.take_left]
  rw [hdrop, htake, if_pos (checksumsEqual_self (sha256 body))]

/-- C9.  The footer `writeBlock` writes is the SHA-256 of every byte
preceding it, and `ValidateBlock` recomputes SHA-256 over
`[0, length-32)` and compares with the stored last 32 bytes — so every
freshly encoded, unmodified block file validates successfully. -/
theorem encode_validate_roundtrip (disk : List SFile) (id : Int) (files : List FileInfo) :
    validateBlockBytes (encodeBlock disk id files) = ValidateRes.ok :=
  validate_append_digest (encodeBlockBody disk id files)

/-! ## Codec round trip: primitive reads -/

theorem readFull_append (k : Nat) (xs rest : List Byte) (h : xs.length = k) :
    readFull k (xs ++ rest) = some (xs, rest) := by
  subst h
  unfold readFull
  rw [if_pos (by simp), List.take_left, List.drop_left]

theorem readSingle_append (k : Nat) (xs rest : List Byte) (h : xs.length = k) :
    readSingle k (xs ++ rest) = some (xs, rest) := by
  subst h
  unfold readSingle
  by_cases h0 : xs.length = 0
  · rw [if_pos h0, List.eq_nil_of_length_eq_zero h0]
    simp
  · rw [if_neg h0, if_neg (by simp only [List.length_append]; omega)]
    have hmin : xs.length - min xs.length (xs ++ rest).length = 0 := by
      simp [Nat.min_def]
    rw [hmin, List.take_left, List.drop_left]
    simp

theorem readInt32_append (i : Int) (rest : List Byte) :
    readInt32 (encInt32 i ++ rest) = some (toInt32 (int32Bits i), rest) := by
  unfold readInt32 encInt32
  rw [readFull_append 4 _ rest (enc32_length _)]
  simp [leVal32_enc32, Nat.mod_eq_of_lt (int32Bits_lt i)]

theorem readInt64_append (i : Int) (rest : List Byte) :
    readInt64 (encInt64 i ++ rest) = some (toInt64 (int64Bits i), rest) := by
  unfold readInt64 encInt64
  rw [readFull_append 8 _ rest (enc64_length _)]
  simp [leVal64_enc64, Nat.mod_eq_of_lt (int64Bits_lt i)]

theorem readUInt32_append (n : Nat) (rest : List Byte) (h : n < 4294967296) :
    readUInt32 (enc32 n ++ rest) = some (n, rest) := by
  unfold readUInt32
  rw [readFull_append 4 _ rest (enc32_length _)]
  simp [leVal32_enc32, Nat.mod_eq_of_lt h]

/-- The machine-representable range of a metadata record: every field
fits the width `writeMetadata` gives it. -/
def metaInRange (m : FileMeta) : Prop :=
  m.path.length < 2147483648 ∧
  -9223372036854775808 ≤ m.size ∧ m.size < 9223372036854775808 ∧
  -9223372036854775808 ≤ m.modTime ∧ m.modTime < 9223372036854775808 ∧
  -9223372036854775808 ≤ m.offset ∧ m.offset < 9223372036854775808 ∧
  m.mode < 4294967296 ∧
  m.checksum.length = 32

/-- What `readMetadata` reconstructs: every serialized field, with the
(unserialized) block ID left at zero. -/
def stripID (m : FileMeta) : FileMeta :=
  ⟨m.path, m.size, m.modTime, m.checksum, m.offset, 0, m.mode⟩

theorem readMetadata_encodeMeta (m : FileMeta) (rest : List Byte) (h : metaInRange m) :
    readMetadata (encodeMeta m ++ rest) = .ok (stripID m) rest := by
  obtain ⟨h1, h2, h3, h4, h5, h6, h7, h8, h9⟩ := h
  unfold readMetadata encodeMeta
  simp only [List.append_assoc]
  rw [readInt32_append, toInt32_int32Bits_ofNat _ h1]
  dsimp only
  rw [if_neg (by omega : ¬ ((m.path.length : Int) < 0))]
  have htn : Int.toNat (m.path.length : Int) = m.path.length := rfl
  rw [htn, readSingle_append m.path.length m.path _ rfl]
  dsimp only
  rw [readInt64_append, toInt64_int64Bits _ h2 h3]
  dsimp only
  rw [readInt64_append, toInt64_int64Bits _ h4 h5]
  dsimp only
  rw [readInt64_append, toInt64_int64Bits _ h6 h7]
  dsimp only
  rw [readUInt32_append _ _ h8]
  dsimp only
  rw [readSingle_append 32 m.checksum rest h9]
  rfl

theorem readMetas_encodeMetas (ms : List FileMeta) (rest : List Byte)
    (h : ∀ m ∈ ms, metaInRange m) :
    readMetas ms.length ((ms.map encodeMeta).flatten ++ rest) = .ok (ms.map stripID) rest := by
  induction ms generalizing rest with
  | nil => simp [readMetas]
  | cons m ms ih =>
    simp only [List.map_cons, List.flatten_cons, List.length_cons, List.append_assoc]
    simp only [readMetas]
    rw [readMetadata_encodeMeta m _ (h m (by simp))]
    dsimp only
    rw [ih _ fun x hx => h x (by simp [hx])]

/-- One restored file, as the extractor writes it for a descriptor. -/
def outOf (disk : List SFile) (f : FileInfo) : OutFile :=
  ⟨f.path, readDisk disk f.path, f.modTime, f.mode⟩

theorem extract_blockMetas (disk : List SFile) (id : Int) :
    ∀ (files : List FileInfo) (acc : Int) (tail : List Byte) (outAcc : List OutFile),
    (∀ f ∈ files, f.size = ((readDisk disk f.path).length : Int)) →
    extractFiles ((blockMetasFrom disk id files acc).map stripID)
        ((files.map fun f => readDisk disk f.path).flatten ++ tail) outAcc =
      .ok (outAcc ++ files.map (outOf disk)) := by
  intro files
  induction files with
  | nil => intro acc tail outAcc h; simp [blockMetasFrom, extractFiles]
  | cons f fs ih =>
    intro acc tail outAcc h
    have hf := h f (by simp)
    simp only [blockMetasFrom, List.map_cons, List.flatten_cons, List.append_assoc]
    simp only [extractFiles, stripID]
    unfold extractFile
    dsimp only
    by_cases hz : (readDisk disk f.path).length = 0
    · have hzn : readDisk disk f.path = [] := List.eq_nil_of_length_eq_zero hz
      rw [if_pos (by rw [hf, hzn]; simp), if_pos (by rw [hzn])]
      dsimp only
      rw [hzn]
      simp only [List.nil_append]
      have hrec := ih (acc + f.size) tail (outAcc ++ [⟨f.path, [], f.modTime, f.mode⟩])
        (fun x hx => h x (by simp [hx]))
      rw [List.append_assoc, List.singleton_append] at hrec
      rw [hrec]
      simp [outOf, hzn]
    · rw [if_neg (by rw [hf]; omega)]
      have htn : (f.size).toNat = (readDisk disk f.path).length := by rw [hf]; rfl
      rw [htn, if_neg (by simp only [List.length_append]; omega), List.take_left,
        List.drop_left, if_pos rfl]
      dsimp only
      have hrec := ih (acc + f.size) tail
        (outAcc ++ [⟨f.path, readDisk disk f.path, f.modTime, f.mode⟩])
        (fun x hx => h x (by simp [hx]))
      rw [List.append_assoc, List.singleton_append] at hrec
      rw [hrec]
      simp [outOf]

theorem blockSizeSum_nonneg (files : List FileInfo) (h : ∀ f ∈ files, 0 ≤ f.size) :
    0 ≤ blockSizeSum files := by
  induction files with
  | nil => simp [blockSizeSum]
  | cons f fs ih =>
    have := h f (by simp)
    have hrest := ih fun x hx => h x (by simp [hx])
    simp only [blockSizeSum, List.map_cons, List.sum_cons] at *
    omega

theorem blockMetasFrom_inRange (disk : List SFile) (id : Int) :
    ∀ (files : List FileInfo) (acc : Int),
    (∀ f ∈ files, f.path.length < 2147483648) →
    (∀ f ∈ files, 0 ≤ f.size) →
    (∀ f ∈ files, -9223372036854775808 ≤ f.modTime ∧ f.modTime < 9223372036854775808) →
    (∀ f ∈ files, f.mode < 4294967296) →
    0 ≤ acc → acc + blockSizeSum files < 9223372036854775808 →
    ∀ m ∈ blockMetasFrom disk id files acc, metaInRange m := by
  intro files
  induction files with
  | nil => intro acc _ _ _ _ _ _ m hm; simp [blockMetasFrom] at hm
  | cons f fs ih =>
    intro acc hpath hsz hmod hmode hacc hsum m hm
    have hszf := hsz f (by simp)
    have hrest : 0 ≤ blockSizeSum fs := blockSizeSum_nonneg fs fun x hx => hsz x (by simp [hx])
    have hsum' : acc + f.size + blockSizeSum fs < 9223372036854775808 := by
      simp only [blockSizeSum, List.map_cons, List.sum_cons] at hsum ⊢
      omega
    rcases List.mem_cons.mp hm with hm | hm
    · subst hm
      unfold metaInRange
      dsimp only
      refine ⟨hpath f (by simp), by omega, by omega, (hmod f (by simp)).1, (hmod f (by simp)).2,
        by omega, by omega, hmode f (by simp), sha256_length _⟩
    · exact ih (acc + f.size) (fun x hx => hpath x (by simp [hx]))
        (fun x hx => hsz x (by simp [hx])) (fun x hx => hmod x (by simp [hx]))
        (fun x hx => hmode x (by simp [hx])) (by omega) hsum' m hm

/-- Decode-then-extract on a freshly encoded block restores every file
of the block, in order. -/
theorem unpackBlock_encodeBlock (verify : Bool) (disk : List SFile) (id : Int)
    (files : List FileInfo)
    (hcons : ∀ f ∈ files, f.size = ((readDisk disk f.path).length : Int))
    (hpath : ∀ f ∈ files, f.path.length < 2147483648)
    (hmod : ∀ f ∈ files, -9223372036854775808 ≤ f.modTime ∧ f.modTime < 9223372036854775808)
    (hmode : ∀ f ∈ files, f.mode < 4294967296)
    (hsum : blockSizeSum files < 9223372036854775808)
    (hcount : files.length < 2147483648) :
    unpackBlockBytes verify (encodeBlock disk id files) =
      .ok (files.map (outOf disk)) := by
  have hszpos : ∀ f ∈ files, 0 ≤ f.size := fun f hf => by
    rw [hcons f hf]; exact Int.natCast_nonneg _
  have hv : validateBlockBytes (encodeBlock disk id files) = ValidateRes.ok :=
    validate_append_digest _
  unfold unpackBlockBytes
  rw [if_neg (by simp [hv])]
  unfold encodeBlock encodeBlockBody
  simp only [blockMetas]
  simp only [List.append_assoc]
  rw [readInt32_append]
  dsimp only
  rw [readInt32_append, toInt32_int32Bits_ofNat _ hcount]
  dsimp only
  rw [if_neg (by omega : ¬ ((files.length : Int) < 0))]
  have htn : (files.length : Int).toNat = files.length := rfl
  rw [htn]
  have hlen : files.length = (blockMetasFrom disk id files 0).length :=
    (blockMetasFrom_length disk id files 0).symm
  rw [hlen, readMetas_encodeMetas _ _
    (blockMetasFrom_inRange disk id files 0 hpath hszpos hmod hmode le_rfl (by simpa using hsum))]
  dsimp only
  rw [extract_blockMetas disk id files 0 _ [] hcons]
  simp

theorem collectFileInfo_eq_self (cap : Int) (l : List FileInfo) (h : ∀ f ∈ l, f.size ≤ cap) :
    collectFileInfo cap l = l := by
  unfold collectFileInfo
  exact List.filter_eq_self.mpr fun f hf => by simpa using h f hf

theorem readDisk_self (disk : List SFile) (hnd : (disk.map SFile.path).Nodup) :
    ∀ g ∈ disk, readDisk disk g.path = g.content := by
  induction disk with
  | nil => simp
  | cons d ds ih =>
    intro g hg
    have hnd2 : d.path ∉ ds.map SFile.path ∧ (ds.map SFile.path).Nodup := by
      rw [List.map_cons] at hnd
      exact List.nodup_cons.mp hnd
    rcases List.mem_cons.mp hg with hg | hg
    · subst hg
      unfold readDisk
      simp [List.find?_cons]
    · have hbe : (d.path == g.path) = false := by
        simp only [beq_eq_false_iff_ne, ne_eq]
        intro he
        exact hnd2.1 (he ▸ List.mem_map_of_mem SFile.path hg)
      unfold readDisk
      simp only [List.find?_cons, hbe]
      exact ih hnd2.2 g hg

theorem packLoop_flatten (cap : Int) :
    ∀ (files cur : List FileInfo) (curSize bn : Int), files ≠ [] →
    ((packLoop cap files cur curSize bn).map Prod.snd).flatten = cur ++ files := by
  intro files
  induction files with
  | nil => intro cur curSize bn h; exact absurd rfl h
  | cons f rest ih =>
    intro cur curSize bn _
    cases rest with
    | nil =>
      simp only [packLoop]
      split <;> simp
    | cons g rest2 =>
      simp only [packLoop]
      split
      · simp only [List.map_cons, List.flatten_cons]
        rw [ih [f] f.size (bn + 1) (by simp)]
        simp
      · rw [ih (cur ++ [f]) (curSize + f.size) bn (by simp)]
        simp

theorem length_le_flatten {α : Type} (l : List α) (ls : List (List α)) (h : l ∈ ls) :
    l.length ≤ ls.flatten.length := by
  induction ls with
  | nil => simp at h
  | cons x xs ih =>
    rcases List.mem_cons.mp h with h | h
    · subst h
      simp only [List.flatten_cons, List.length_append]
      omega
    · have := ih h
      simp only [List.flatten_cons, List.length_append]
      omega

theorem unpackAll_blocks (verify : Bool) (disk : List SFile)
    (blocks : List (Int × List FileInfo))
    (h : ∀ b ∈ blocks, unpackBlockBytes verify (encodeBlock disk b.1 b.2) =
      UnpackRes.ok (b.2.map (outOf disk))) :
    unpackAll verify (blocks.map fun b => encodeBlock disk b.1 b.2) =
      some ((blocks.map Prod.snd).flatten.map (outOf disk)) := by
  induction blocks with
  | nil => rfl
  | cons b bs ih =>
    simp only [List.map_cons]
    unfold unpackAll
    rw [h b (by simp)]
    rw [ih fun x hx => h x (by simp [hx])]
    simp

/-- C1.  For every source tree (distinct paths, machine-representable
fields) whose files all fit the configured capacity, packing and then
unpacking every produced block file restores, as a permutation of the
originals, every file with its exact byte content, size (the content's
length), permission bits, and modification time at one-second
resolution — with pre-extraction verification either enabled or
disabled. -/
theorem pack_unpack_roundtrip (verify : Bool) (disk : List SFile) (cap : Int)
    (hnd : (disk.map SFile.path).Nodup)
    (hsz : ∀ f ∈ disk, (f.content.length : Int) ≤ cap)
    (hpath : ∀ f ∈ disk, f.path.length < 2147483648)
    (hmod : ∀ f ∈ disk, -9223372036854775808 ≤ f.modTime ∧ f.modTime < 9223372036854775808)
    (hmode : ∀ f ∈ disk, f.mode < 4294967296)
    (hcap : cap < 9223372036854775808)
    (hcount : disk.length < 2147483648) :
    ∃ outs, unpackAll verify (encodeRun disk cap) = some outs ∧
      outs.Perm (disk.map fun f => ⟨f.path, f.content, f.modTime, f.mode⟩) := by
  have hsz' : ∀ f ∈ diskInfos disk, f.size ≤ cap := by
    intro f hf
    rw [diskInfos] at hf
    obtain ⟨g, hg, rfl⟩ := List.mem_map.mp hf
    simpa [fileInfoOf] using hsz g hg
  have hcoll : collectFileInfo cap (diskInfos disk) = diskInfos disk :=
    collectFileInfo_eq_self cap (diskInfos disk) hsz'
  have hperm : (sortFileInfos (diskInfos disk)).Perm (diskInfos disk) :=
    sortFileInfos_perm (diskInfos disk)
  have hmem : ∀ f ∈ sortFileInfos (diskInfos disk), ∃ g ∈ disk, f = fileInfoOf g := by
    intro f hf
    have hf2 : f ∈ diskInfos disk := hperm.mem_iff.mp hf
    rw [diskInfos] at hf2
    obtain ⟨g, hg, rfl⟩ := List.mem_map.mp hf2
    exact ⟨g, hg, rfl⟩
  have hconsS : ∀ f ∈ sortFileInfos (diskInfos disk),
      f.size = ((readDisk disk f.path).length : Int) := by
    intro f hf
    obtain ⟨g, hg, rfl⟩ := hmem f hf
    simp [fileInfoOf, readDisk_self disk hnd g hg]
  have hpathS : ∀ f ∈ sortFileInfos (diskInfos disk), f.path.length < 2147483648 := by
    intro f hf
    obtain ⟨g, hg, rfl⟩ := hmem f hf
    simpa [fileInfoOf] using hpath g hg
  have hmodS : ∀ f ∈ sortFileInfos (diskInfos disk),
      -9223372036854775808 ≤ f.modTime ∧ f.modTime < 9223372036854775808 := by
    intro f hf
    obtain ⟨g, hg, rfl⟩ := hmem f hf
    simpa [fileInfoOf] using hmod g hg
  have hmodeS : ∀ f ∈ sortFileInfos (diskInfos disk), f.mode < 4294967296 := by
    intro f hf
    obtain ⟨g, hg, rfl⟩ := hmem f hf
    simpa [fileInfoOf] using hmode g hg
  have hszS : ∀ f ∈ sortFileInfos (diskInfos disk), f.size ≤ cap := by
    intro f hf
    exact hsz' f (hperm.mem_iff.mp hf)
  have hsub : ∀ b ∈ packFiles (sortFileInfos (diskInfos disk)) cap, ∀ f ∈ b.2,
      f ∈ sortFileInfos (diskInfos disk) := by
    intro b hb f hf
    have hne : sortFileInfos (diskInfos disk) ≠ [] := by
      intro h0
      rw [h0] at hb
      simp [packFiles, packLoop] at hb
    have hmemf : f ∈ ((packFiles (sortFileInfos (diskInfos disk)) cap).map Prod.snd).flatten :=
      List.mem_flatten.mpr ⟨b.2, List.mem_map_of_mem Prod.snd hb, hf⟩
    rw [packFiles, packLoop_flatten cap _ [] 0 1 hne] at hmemf
    simpa using hmemf
  have hperblock : ∀ b ∈ packFiles (sortFileInfos (diskInfos disk)) cap,
      unpackBlockBytes verify (encodeBlock disk b.1 b.2) =
        UnpackRes.ok (b.2.map (outOf disk)) := by
    intro b hb
    have hne : sortFileInfos (diskInfos disk) ≠ [] := by
      intro h0
      rw [h0] at hb
      simp [packFiles, packLoop] at hb
    apply unpackBlock_encodeBlock
    · exact fun f hf => hconsS f (hsub b hb f hf)
    · exact fun f hf => hpathS f (hsub b hb f hf)
    · exact fun f hf => hmodS f (hsub b hb f hf)
    · exact fun f hf => hmodeS f (hsub b hb f hf)
    · have := block_capacity_invariant (sortFileInfos (diskInfos disk)) cap hszS b hb
      omega
    · have h1 : b.2.length ≤
          (((packFiles (sortFileInfos (diskInfos disk)) cap).map Prod.snd).flatten).length :=
        length_le_flatten b.2 _ (List.mem_map_of_mem Prod.snd hb)
      rw [packFiles, packLoop_flatten cap _ [] 0 1 hne] at h1
      have h2 : (sortFileInfos (diskInfos disk)).length = disk.length := by
        rw [hperm.length_eq, diskInfos, List.length_map]
      simp only [List.nil_append] at h1
      omega
  refine ⟨((packFiles (sortFileInfos (diskInfos disk)) cap).map Prod.snd).flatten.map
    (outOf disk), ?_, ?_⟩
  · rw [encodeRun, packDisk, hcoll]
    exact unpackAll_blocks verify disk _ hperblock
  · by_cases hnil : sortFileInfos (diskInfos disk) = []
    · have hi : diskInfos disk = [] := by
        have hl := hperm.length_eq
        rw [hnil] at hl
        exact List.eq_nil_of_length_eq_zero hl.symm
      have hd : disk = [] := by
        rw [diskInfos] at hi
        exact List.map_eq_nil_iff.mp hi
      subst hd
      simp [hnil, packFiles, packLoop]
    · have hflat : ((packFiles (sortFileInfos (diskInfos disk)) cap).map Prod.snd).flatten =
          sortFileInfos (diskInfos disk) := by
        rw [packFiles, packLoop_flatten cap _ [] 0 1 hnil]
        simp
      rw [hflat]
      have h2 : (diskInfos disk).map (outOf disk) =
          disk.map fun f => ⟨f.path, f.content, f.modTime, f.mode⟩ := by
        rw [diskInfos, List.map_map]
        apply List.map_congr_left
        intro g hg
        simp [outOf, fileInfoOf, Function.comp, readDisk_self disk hnd g hg]
      rw [← h2]
      exact hperm.map (outOf disk)

/-- Witness for `pack_unpack_roundtrip` at a concrete two-file tree. -/
theorem pack_unpack_roundtrip_witness :
    (([(⟨[97], [1, 2], 5, 420⟩ : SFile), ⟨[98], [3], 6, 493⟩].map SFile.path).Nodup ∧
      (∀ f ∈ [(⟨[97], [1, 2], 5, 420⟩ : SFile), ⟨[98], [3], 6, 493⟩],
        (f.content.length : Int) ≤ 10)) ∧
    ∃ outs,
      unpackAll true (encodeRun [(⟨[97], [1, 2], 5, 420⟩ : SFile), ⟨[98], [3], 6, 493⟩] 10) =
        some outs ∧
      outs.Perm ([(⟨[97], [1, 2], 5, 420⟩ : SFile), ⟨[98], [3], 6, 493⟩].map
        fun f => ⟨f.path, f.content, f.modTime, f.mode⟩) :=
  ⟨⟨by decide, by decide⟩,
   pack_unpack_roundtrip true _ 10 (by decide) (by decide) (by decide) (by decide) (by decide)
     (by decide) (by decide)⟩

/-! ## Tampered payloads (C5) -/

theorem extract_tamper (disk : List SFile) (id : Int) :
    ∀ (pre : List FileInfo) (acc : Int) (fk : FileInfo) (postPay : List (List Byte))
      (badC tail : List Byte) (outAcc : List OutFile) (post : List FileInfo),
    (∀ f ∈ pre, f.size = ((readDisk disk f.path).length : Int)) →
    fk.size = (badC.length : Int) →
    sha256 badC ≠ sha256 (readDisk disk fk.path) →
    extractFiles ((blockMetasFrom disk id (pre ++ fk :: post) acc).map stripID)
        (((pre.map fun f => readDisk disk f.path) ++ badC :: postPay).flatten ++ tail) outAcc =
      .integrityErr (outAcc ++ pre.map (outOf disk)) fk.path := by
  intro pre
  induction pre with
  | nil =>
    intro acc fk postPay badC tail outAcc post _ hlen hbad
    simp only [List.nil_append, List.map_nil, blockMetasFrom, List.map_cons,
      List.flatten_cons, List.append_assoc]
    simp only [extractFiles, stripID]
    unfold extractFile
    dsimp only
    by_cases hz : badC.length = 0
    · have hzn : badC = [] := List.eq_nil_of_length_eq_zero hz
      rw [if_pos (by rw [hlen, hzn]; simp)]
      rw [if_neg (by rw [← hzn]; exact hbad)]
      simp
    · rw [if_neg (by rw [hlen]; omega)]
      have htn : (fk.size).toNat = badC.length := by rw [hlen]; rfl
      rw [htn, if_neg (by simp only [List.length_append]; omega), List.take_left]
      rw [if_neg hbad]
      simp
  | cons p pre' ih =>
    intro acc fk postPay badC tail outAcc post hcons hlen hbad
    have hp := hcons p (by simp)
    simp only [List.cons_append, blockMetasFrom, List.map_cons, List.flatten_cons,
      List.append_assoc]
    simp only [extractFiles, stripID]
    unfold extractFile
    dsimp only
    by_cases hz : (readDisk disk p.path).length = 0
    · have hzn : readDisk disk p.path = [] := List.eq_nil_of_length_eq_zero hz
      rw [if_pos (by rw [hp, hzn]; simp), if_pos (by rw [hzn])]
      dsimp only
      rw [hzn]
      simp only [List.nil_append]
      have hrec := ih (acc + p.size) fk postPay badC tail
        (outAcc ++ [⟨p.path, [], p.modTime, p.mode⟩]) post
        (fun x hx => hcons x (by simp [hx])) hlen hbad
      rw [List.append_assoc, List.singleton_append] at hrec
      simp only [List.append_eq]
      rw [hrec]
      simp [outOf, hzn]
    · rw [if_neg (by rw [hp]; omega)]
      have htn : (p.size).toNat = (readDisk disk p.path).length := by rw [hp]; rfl
      rw [htn, if_neg (by simp only [List.length_append]; omega), List.take_left,
        List.drop_left, if_pos rfl]
      dsimp only
      have hrec := ih (acc + p.size) fk postPay badC tail
        (outAcc ++ [⟨p.path, readDisk disk p.path, p.modTime, p.mode⟩]) post
        (fun x hx => hcons x (by simp [hx])) hlen hbad
      rw [List.append_assoc, List.singleton_append] at hrec
      simp only [List.append_eq]
      rw [hrec]
      simp [outOf]

/-- A persisted block whose payload section has one file's bytes
replaced in place (same length), every other byte — header, metadata,
the other payloads and the original footer — left untouched. -/
def tamperedBlock (disk : List SFile) (id : Int) (pre : List FileInfo) (fk : FileInfo)
    (post : List FileInfo) (badC : List Byte) : List Byte :=
  encInt32 id ++ encInt32 ((pre ++ fk :: post).length : Int) ++
    ((blockMetas disk id (pre ++ fk :: post)).map encodeMeta).flatten ++
    ((pre.map fun f => readDisk disk f.path) ++
      badC :: post.map fun f => readDisk disk f.path).flatten ++
    sha256 (encodeBlockBody disk id (pre ++ fk :: post))

/-- C5 amended.  With verification disabled, corrupting (in place) only
one file's payload bytes in a block makes the extraction of exactly
that file fail with a file-integrity error naming its path; every file
*before* it in the block still extracts successfully (and stays on
disk: no rollback), while extraction of the remaining records is
aborted — files after the corrupted one are not extracted. -/
theorem tamper_isolates_failure (disk : List SFile) (id : Int)
    (pre : List FileInfo) (fk : FileInfo) (post : List FileInfo) (badC : List Byte)
    (hcons : ∀ f ∈ pre ++ fk :: post, f.size = ((readDisk disk f.path).length : Int))
    (hpath : ∀ f ∈ pre ++ fk :: post, f.path.length < 2147483648)
    (hmod : ∀ f ∈ pre ++ fk :: post,
      -9223372036854775808 ≤ f.modTime ∧ f.modTime < 9223372036854775808)
    (hmode : ∀ f ∈ pre ++ fk :: post, f.mode < 4294967296)
    (hsum : blockSizeSum (pre ++ fk :: post) < 9223372036854775808)
    (hcount : (pre ++ fk :: post).length < 2147483648)
    (hlen : fk.size = (badC.length : Int))
    (hbad : sha256 badC ≠ sha256 (readDisk disk fk.path)) :
    unpackBlockBytes false (tamperedBlock disk id pre fk post badC) =
      UnpackRes.integrityErr (pre.map (outOf disk)) fk.path := by
  have hszpos : ∀ f ∈ pre ++ fk :: post, 0 ≤ f.size := fun f hf => by
    rw [hcons f hf]; exact Int.natCast_nonneg _
  unfold unpackBlockBytes tamperedBlock
  simp only [blockMetas]
  rw [if_neg (by simp)]
  simp only [List.append_assoc]
  rw [readInt32_append]
  dsimp only
  rw [readInt32_append, toInt32_int32Bits_ofNat _ hcount]
  dsimp only
  rw [if_neg (by omega : ¬ (((pre ++ fk :: post).length : Int) < 0))]
  have htn : (((pre ++ fk :: post).length : Int)).toNat = (pre ++ fk :: post).length := rfl
  rw [htn]
  have hlen2 : (pre ++ fk :: post).length =
      (blockMetasFrom disk id (pre ++ fk :: post) 0).length :=
    (blockMetasFrom_length disk id (pre ++ fk :: post) 0).symm
  rw [hlen2, readMetas_encodeMetas _ _
    (blockMetasFrom_inRange disk id (pre ++ fk :: post) 0 hpath hszpos hmod hmode le_rfl
      (by simpa using hsum))]
  dsimp only
  have hext := extract_tamper disk id pre 0 fk (post.map fun f => readDisk disk f.path)
    badC (sha256 (encodeBlockBody disk id (pre ++ fk :: post))) [] post
    (fun x hx => hcons x (by simp [hx])) hlen hbad
  simp only [List.nil_append] at hext
  exact hext

/-- The concrete two-file source tree of the tampering scenario. -/
def c5Disk : List SFile := [⟨[97], [10], 5, 420⟩, ⟨[98], [20], 6, 420⟩]

/-- Its block, with the first file's single payload byte corrupted
from 10 to 11. -/
def c5Tampered : List Byte :=
  tamperedBlock c5Disk 1 [] (fileInfoOf ⟨[97], [10], 5, 420⟩)
    [fileInfoOf ⟨[98], [20], 6, 420⟩] [11]

/-- The same block, untampered. -/
def c5Good : List Byte := encodeBlock c5Disk 1 (c5Disk.map fileInfoOf)

set_option maxRecDepth 100000 in
/-- C5 counterexample.  The untampered two-file block extracts both
files; corrupting only the FIRST file's payload byte makes extraction
fail on that file with zero files written — the sibling `[98]` is NOT
extracted, contradicting "every sibling file in the same block still
extracts successfully". -/
theorem tamper_aborts_sibling :
    unpackBlockBytes false c5Good =
      UnpackRes.ok [⟨[97], [10], 5, 420⟩, ⟨[98], [20], 6, 420⟩] ∧
    unpackBlockBytes false c5Tampered = UnpackRes.integrityErr [] [97] := by
  constructor
  · decide
  · decide

set_option maxRecDepth 100000 in
/-- Witness for `tamper_isolates_failure`: the same concrete block,
with every hypothesis checked by evaluation. -/
theorem tamper_isolates_failure_witness :
    (sha256 [11] ≠ sha256 (readDisk c5Disk [97]) ∧
      (fileInfoOf (⟨[97], [10], 5, 420⟩ : SFile)).size = (([11] : List Byte).length : Int)) ∧
    unpackBlockBytes false c5Tampered = UnpackRes.integrityErr [] [97] :=
  ⟨⟨by decide, by decide⟩,
   tamper_isolates_failure c5Disk 1 [] (fileInfoOf ⟨[97], [10], 5, 420⟩)
     [fileInfoOf ⟨[98], [20], 6, 420⟩] [11] (by decide) (by decide) (by decide) (by decide)
     (by decide) (by decide) (by decide) (by decide)⟩
